import Mathlib

/-!
# RESP codec of `resp.go`: shallow embedding and verification

The Go file `resp.go` implements a decoder (`Resp.Read` and its helpers
`readLine`, `readInteger`, `readArray`, `readBulk`) and an encoder
(`Value.Marshal` and its helpers) for the REdis Serialization Protocol.

Modelling choices.

* A byte is a natural number (the values used are below 256); a Go `string`
  or `[]byte` is a `List Byte`.  A `nil` slice and an empty slice are both the
  empty list.
* Go `int` is 64 bits wide; `strconv.ParseInt(s, 10, 64)` already confines the
  parsed number to that range, so `int(i64)` is the identity and lengths are
  modelled by `Int`.
* `bufio.Reader` is modelled with its buffer: the bytes already fetched and not
  yet consumed (`buf`), the underlying `io.Reader` as the list of chunks its
  successive `Read` calls deliver (`rd`), and the capacity requested at
  construction (`size`).  `ReadByte` refills the buffer when it is empty;
  `Read` copies what the buffer holds, or performs at most one `Read` on the
  underlying reader, so it may deliver fewer bytes than asked for.
* A run-time panic is the outcome `panic`: `make` panics for a negative length
  and for a slice of more than `maxAlloc` bytes (`makeslice: len out of range`).
  Below that limit an allocation is taken to succeed; a machine that runs out of
  memory stops the process with a fatal error, which depends on the machine and
  is not modelled.
* Recursion of `Read` through `readArray` is bounded by a fuel argument; the
  top-level `Resp.Read` supplies more fuel than the source has bytes. The theorems
  `Read_settled` and `Read_eq` show that the fuel is never used up and that
  `Resp.Read` satisfies the recursive definition of the source.
* `fmt.Printf` in the default branch of `Read` writes to standard output and
  is not part of the model.
-/

namespace Redis

/-- One byte of a Go `string` or `[]byte`. -/
abbrev Byte := Nat

/-- The constant `STRING = '+'`. -/
abbrev STRING : Byte := 43
/-- The constant `ERROR = '-'`. -/
abbrev ERROR : Byte := 45
/-- The constant `INTEGER = ':'`. -/
abbrev INTEGER : Byte := 58
/-- The constant `BULK = '$'`. -/
abbrev BULK : Byte := 36
/-- The constant `ARRAY = '*'`. -/
abbrev ARRAY : Byte := 42
/-- The byte `'\r'`. -/
abbrev CR : Byte := 13
/-- The byte `'\n'`. -/
abbrev LF : Byte := 10

/-- The struct `Value` of `resp.go`: fields `typ`, `str`, `num`, `bulk`, `array`. -/
inductive Value where
  | mk (typ : String) (str : List Byte) (num : Int) (bulk : List Byte) (array : List Value)

namespace Value

/-- Field `typ`. -/
def typ : Value → String
  | mk t _ _ _ _ => t

/-- Field `str`. -/
def str : Value → List Byte
  | mk _ s _ _ _ => s

/-- Field `num`. -/
def num : Value → Int
  | mk _ _ n _ _ => n

/-- Field `bulk`. -/
def bulk : Value → List Byte
  | mk _ _ _ b _ => b

/-- Field `array`. -/
def array : Value → List Value
  | mk _ _ _ _ a => a

/-- The zero value `Value{}`. -/
def zero : Value := mk "" [] 0 [] []

end Value

/-! ## Library functions used by the codec -/

/-- Errors that reach the caller: `io.EOF` from the byte source, and the two
`*strconv.NumError` kinds of `strconv.ParseInt` (each carries the offending text). -/
inductive GoError where
  | eof
  | invalidNum (s : List Byte)
  | rangeNum (s : List Byte)
  deriving DecidableEq, Repr

/-- Digit loop of `strconv.Itoa` for a non-negative number: the least significant
digit is produced first and written in front of the digits already produced. -/
def itoaLoop : Nat → Nat → List Byte → List Byte
  | 0, _, acc => acc
  | fuel + 1, u, acc =>
    if u < 10 then (48 + u) :: acc
    else itoaLoop fuel (u / 10) ((48 + u % 10) :: acc)

/-- The library function `strconv.Itoa`: decimal text of an `int`, with a leading
`-` for a negative number. -/
def Itoa (i : Int) : List Byte :=
  if i < 0 then 45 :: itoaLoop (i.natAbs + 1) i.natAbs []
  else itoaLoop (i.natAbs + 1) i.natAbs []

/-- The two kinds of failure of the number parsers of `strconv`: a text that is not a
number (`ErrSyntax`) and a number outside the range of the type (`ErrRange`). -/
inductive NumErr where
  | invalid
  | range
  deriving DecidableEq, Repr

/-- Digit loop of `strconv.ParseUint(s, 10, 64)`, byte by byte: a byte that is not a
decimal digit is a syntax error; a number that leaves the range of 64 bits is a range
error, reported at the digit where it happens. -/
def parseUintLoop : List Byte → Nat → Except NumErr Nat
  | [], n => .ok n
  | c :: cs, n =>
    if 48 ≤ c ∧ c ≤ 57 then
      if n ≥ (2 ^ 64 - 1) / 10 + 1 then .error .range
      else if n * 10 + (c - 48) > 2 ^ 64 - 1 then .error .range
      else parseUintLoop cs (n * 10 + (c - 48))
    else .error .invalid

/-- The library function `strconv.ParseInt(s, 10, 64)`: an optional sign, then
decimal digits; the value must lie in the signed 64-bit range. The error carries the
whole text `s`. -/
def ParseInt (s : List Byte) : Except GoError Int :=
  match s with
  | [] => .error (.invalidNum s)
  | c :: cs =>
    let neg := c = 45
    let t := if c = 43 ∨ c = 45 then cs else s
    if t = [] then .error (.invalidNum s)
    else
      match parseUintLoop t 0 with
      | .error .invalid => .error (.invalidNum s)
      | .error .range => .error (.rangeNum s)
      | .ok un =>
        if ¬ neg ∧ un ≥ 2 ^ 63 then .error (.rangeNum s)
        else if neg ∧ un > 2 ^ 63 then .error (.rangeNum s)
        else if neg then .ok (-(un : Int)) else .ok (un : Int)

end Redis

/-! ## The buffered reader `bufio.Reader` -/

namespace bufio

open Redis (Byte)

/-- State of a `bufio.Reader`: `buf` is the fetched and still unread part of
its buffer (`b.buf[b.r:b.w]`), `rd` the underlying `io.Reader`, given by the
chunks its successive `Read` calls can deliver (end of stream after the last
one), `size` the capacity asked for at construction. -/
structure Reader where
  buf : List Byte
  rd : List (List Byte)
  size : Nat

namespace Reader

/-- Length of the internal buffer: `NewReaderSize` allocates
`max(size, minReadBufferSize)` bytes, with `minReadBufferSize = 16`. -/
def cap (b : Reader) : Nat := max b.size 16

/-- Every byte the reader can still deliver, in order. -/
def content (b : Reader) : List Byte := b.buf ++ b.rd.flatten

/-- One `Read(p)` of the underlying `io.Reader` with `len(p) = n`: at most `n` bytes
of the next chunk; an empty result means `io.EOF`. What is left of a chunk stays in
front of the list; an entry without bytes (a chunk used up) is passed over, so the
readers modelled are those that never return a zero count with a nil error. -/
def srcRead (n : Nat) : List (List Byte) → List Byte × List (List Byte)
  | [] => ([], [])
  | [] :: cs => srcRead n cs
  | (x :: c) :: cs => ((x :: c).take n, (x :: c).drop n :: cs)

/-- The method `ReadByte`: takes the next buffered byte, after refilling the empty
buffer from the underlying reader; `none` is the error `io.EOF`. -/
def ReadByte (b : Reader) : Option Byte × Reader :=
  match b.buf with
  | c :: cs => (some c, { b with buf := cs })
  | [] =>
    match srcRead b.cap b.rd with
    | ([], rd1) => (none, { b with rd := rd1 })
    | (c :: cs, rd1) => (some c, { b with buf := cs, rd := rd1 })

/-- The method `Read(p)` with `len(p) = n`, returning the bytes copied into `p`.
A non-empty buffer is copied from without touching the underlying reader; with
an empty buffer exactly one `Read` of the underlying reader is made, directly
into `p` when `n` is at least the buffer length and through the buffer otherwise. -/
def Read (b : Reader) (n : Nat) : List Byte × Reader :=
  if n = 0 then ([], b)
  else
    match b.buf with
    | [] =>
      if n ≥ b.cap then
        let res := srcRead n b.rd
        (res.1, { b with rd := res.2 })
      else
        let res := srcRead b.cap b.rd
        (res.1.take n, { b with buf := res.1.drop n, rd := res.2 })
    | c :: cs => ((c :: cs).take n, { b with buf := (c :: cs).drop n })

end Reader

/-- The constructor `bufio.NewReader` over a reader delivering the given chunks:
an empty buffer of the default size 4096. -/
def NewReader (chunks : List (List Byte)) : Reader :=
  { buf := [], rd := chunks, size := 4096 }

end bufio

namespace Redis

/-- The struct `Resp`: a decoder bound to a buffered reader. -/
structure Resp where
  reader : bufio.Reader

/-- The constructor `NewResp`. -/
def NewResp (chunks : List (List Byte)) : Resp :=
  { reader := bufio.NewReader chunks }

/-- The bytes a decoder has not consumed yet. -/
def Resp.rest (r : Resp) : List Byte := r.reader.content

/-- Result of running a method of `Resp`: it returns a result and leaves the decoder
in a new state, or it panics, or the model ran out of fuel. -/
inductive Outcome (α : Type) where
  | ret (a : α) (r : Resp)
  | panic
  | fuel

/-- Loop of `readLine`: `line` and `n` are the accumulated line and byte count. -/
def readLineLoop : Nat → Resp → List Byte → Nat → Outcome (List Byte × Nat × Option GoError)
  | 0, _, _, _ => .fuel
  | fuel + 1, r, line, n =>
    match r.reader.ReadByte with
    | (none, rd1) => .ret ([], 0, some .eof) { reader := rd1 }
    | (some b, rd1) =>
      let n1 := n + 1
      let line1 := line ++ [b]
      if line1.length ≥ 2 ∧ line1.getD (line1.length - 2) 0 = CR then
        .ret (line1.take (line1.length - 2), n1, none) { reader := rd1 }
      else readLineLoop fuel { reader := rd1 } line1 n1

/-- The method `readLine`. One loop iteration consumes one byte, so the loop is
given one iteration more than the source has bytes. -/
def Resp.readLine (r : Resp) : Outcome (List Byte × Nat × Option GoError) :=
  readLineLoop (r.rest.length + 1) r [] 0

/-- The method `readInteger`. -/
def Resp.readInteger (r : Resp) : Outcome (Int × Nat × Option GoError) :=
  match r.readLine with
  | .panic => .panic
  | .fuel => .fuel
  | .ret (_, _, some err) r1 => .ret (0, 0, some err) r1
  | .ret (line, n, none) r1 =>
    match ParseInt line with
    | .error err => .ret (0, n, some err) r1
    | .ok i64 => .ret (i64, n, none) r1

/-- The runtime constant `maxAlloc` of a 64-bit platform with 48 address bits: the
largest number of bytes that one allocation may have. -/
def maxAlloc : Nat := 2 ^ 48

/-- Size in bytes of a `Value` on a 64-bit platform: three strings of 16 bytes each, an
`int` of 8 bytes and a slice header of 24 bytes. -/
def sizeofValue : Nat := 80

/-- Whether `make([]T, len)` panics, for elements of `size` bytes: the runtime function
`makeslice` panics for a negative length and for a slice of more than `maxAlloc` bytes. -/
def makePanics (size : Nat) (len : Int) : Bool :=
  decide (len < 0) || decide (size * len.toNat > maxAlloc)

/-- The `for i := range length` loop of `readArray`: `k` iterations remain, `i` is
the loop index, `arr` the current content of `v.array`. -/
def arrayLoop (read : Resp → Outcome (Value × Option GoError)) :
    Nat → Nat → List Value → Resp → Outcome (Value × Option GoError)
  | 0, _, arr, r => .ret (.mk "array" [] 0 [] arr, none) r
  | k + 1, i, arr, r =>
    match read r with
    | .panic => .panic
    | .fuel => .fuel
    | .ret (_, some err) r1 => .ret (.mk "array" [] 0 [] arr, some err) r1
    | .ret (val, none) r1 => arrayLoop read k (i + 1) (arr.set i val) r1

/-- The method `readArray`; `read` is the method `Read` it calls for the elements.
`make([]Value, length)` panics for a negative length and for one above the limit of
the runtime. -/
def Resp.readArray (read : Resp → Outcome (Value × Option GoError)) (r : Resp) :
    Outcome (Value × Option GoError) :=
  match r.readInteger with
  | .panic => .panic
  | .fuel => .fuel
  | .ret (_, _, some err) r1 => .ret (Value.zero, some err) r1
  | .ret (length, _, none) r1 =>
    if makePanics sizeofValue length then .panic
    else arrayLoop read length.toNat 0 (List.replicate length.toNat Value.zero) r1

/-- The method `readBulk`. `make([]byte, len)` panics for a negative length and for
one above the limit of the runtime; the bytes of `bulk` that `r.reader.Read(bulk)` does not fill stay zero; the results
of `r.reader.Read(bulk)` and of the final `r.readLine()` are discarded. -/
def Resp.readBulk (r : Resp) : Outcome (Value × Option GoError) :=
  match r.readInteger with
  | .panic => .panic
  | .fuel => .fuel
  | .ret (_, _, some err) r1 => .ret (.mk "bulk" [] 0 [] [], some err) r1
  | .ret (len, _, none) r1 =>
    if makePanics 1 len then .panic
    else
      let got := r1.reader.Read len.toNat
      let bulk := got.1 ++ List.replicate (len.toNat - got.1.length) 0
      match Resp.readLine { reader := got.2 } with
      | .panic => .panic
      | .fuel => .fuel
      | .ret _ r3 => .ret (.mk "bulk" [] 0 bulk [], none) r3

/-- The method `Read` with a bound on the depth of its recursion through `readArray`. -/
def ReadFuel : Nat → Resp → Outcome (Value × Option GoError)
  | 0, _ => .fuel
  | fuel + 1, r =>
    match r.reader.ReadByte with
    | (none, rd1) => .ret (Value.zero, some .eof) { reader := rd1 }
    | (some typ, rd1) =>
      if typ = ARRAY then Resp.readArray (ReadFuel fuel) { reader := rd1 }
      else if typ = BULK then Resp.readBulk { reader := rd1 }
      else .ret (Value.zero, none) { reader := rd1 }

/-- The method `Read`. Every nested call consumes its tag byte first, so the nesting
depth is at most the number of bytes of the source. -/
def Resp.Read (r : Resp) : Outcome (Value × Option GoError) :=
  ReadFuel (r.rest.length + 1) r

/-! ## The encoder -/

/-- The method `marshalBulk`. -/
def Value.marshalBulk (v : Value) : List Byte :=
  [BULK] ++ Itoa v.bulk.length ++ [CR, LF] ++ v.bulk ++ [CR, LF]

/-- The method `marshallError`. -/
def Value.marshallError (v : Value) : List Byte :=
  [ERROR] ++ v.str ++ [CR, LF]

/-- The method `marshallNull`: the text `$-1\r\n`. -/
def Value.marshallNull (_v : Value) : List Byte :=
  [36, 45, 49, 13, 10]

/-- The method `marshalString`. -/
def Value.marshalString (v : Value) : List Byte :=
  [STRING] ++ v.str ++ [CR, LF]

mutual
/-- The method `Marshal`; the branch for `"array"` is the body of `marshalArray`. -/
def Value.Marshal : Value → List Byte
  | .mk typ str num bulk array =>
    if typ = "array" then
      [ARRAY] ++ Itoa array.length ++ [CR, LF] ++ marshalElems array
    else if typ = "bulk" then (Value.mk typ str num bulk array).marshalBulk
    else if typ = "string" then (Value.mk typ str num bulk array).marshalString
    else if typ = "null" then (Value.mk typ str num bulk array).marshallNull
    else if typ = "error" then (Value.mk typ str num bulk array).marshallError
    else []
/-- The `for _, val := range v.array` loop of `marshalArray`. -/
def marshalElems : List Value → List Byte
  | [] => []
  | val :: vals => val.Marshal ++ marshalElems vals
end

/-- The method `marshalArray`. -/
def Value.marshalArray (v : Value) : List Byte :=
  [ARRAY] ++ Itoa v.array.length ++ [CR, LF] ++ marshalElems v.array

end Redis

/-! ## Notions of the specification -/

namespace Redis

/-- The decimal ASCII digits of a natural number, most significant digit first,
`0` being written as the single digit `0`. -/
def decimalDigits (n : Nat) : List Byte :=
  if n = 0 then [48] else (Nat.digits 10 n).reverse.map (fun d => 48 + d)

/-- Whether a byte is one of the decimal digits `'0'` to `'9'`. -/
def isDigit (c : Byte) : Bool := decide (48 ≤ c) && decide (c ≤ 57)

/-- Whether a line is a base-10 signed integer as text: an optional sign `+` or `-`
followed by at least one decimal digit and nothing else. -/
def isDecimalInt : List Byte → Bool
  | [] => false
  | c :: cs =>
    if c = 43 ∨ c = 45 then !cs.isEmpty && cs.all isDigit
    else (c :: cs).all isDigit

/-- The five tag bytes of the protocol: `+`, `-`, `:`, `$`, `*`. -/
def isTag (c : Byte) : Bool :=
  c = STRING ∨ c = ERROR ∨ c = INTEGER ∨ c = BULK ∨ c = ARRAY

/-- Values built only from non-null bulk strings and arrays of such values: typ
`"bulk"` with any payload, or typ `"array"` with elements that are such values again,
the fields not in use being zero. Payloads and arrays are within the size that `make`
allocates. -/
inductive Plain : Value → Prop
  | bulk (p : List Byte) : p.length ≤ maxAlloc → Plain (.mk "bulk" [] 0 p [])
  | array (es : List Value) : sizeofValue * es.length ≤ maxAlloc → (∀ e ∈ es, Plain e) →
      Plain (.mk "array" [] 0 [] es)

/-- An outcome is settled within `bound` when the method returned and left at most
`bound` bytes unread, or panicked; an outcome that ran out of fuel is not settled. -/
def Outcome.Settled {α : Type} (o : Outcome α) (bound : Nat) : Prop :=
  match o with
  | .ret _ r1 => r1.rest.length ≤ bound
  | .panic => True
  | .fuel => False

/-- The number a string of decimal digits denotes, most significant digit first. -/
def digitsValue (ds : List Byte) : Nat :=
  ds.foldl (fun a c => a * 10 + (c - 48)) 0

/-- The value of a base-10 signed integer written as text: the number its digits
denote, negated after the sign `-`. -/
def decimalIntValue : List Byte → Int
  | [] => 0
  | c :: cs =>
    if c = 45 then -(digitsValue cs : Int)
    else if c = 43 then (digitsValue cs : Int)
    else (digitsValue (c :: cs) : Int)

/-- Whether a number lies in the signed 64-bit range. -/
def inInt64 (x : Int) : Bool :=
  decide (-(2 : Int) ^ 63 ≤ x) && decide (x < (2 : Int) ^ 63)

/-- A well-formed encoding of a non-null bulk string or of an array: `$`, the length
written as a base-10 number, CR LF, as many payload bytes, CR LF; or `*`, the count
written as a base-10 number, CR LF, followed by as many well-formed encodings. -/
inductive WellFormed : List Byte → Prop
  | bulk (d p : List Byte) : d ≠ [] → d.all isDigit = true → digitsValue d = p.length →
      WellFormed ([BULK] ++ d ++ [CR, LF] ++ p ++ [CR, LF])
  | array (d : List Byte) (es : List (List Byte)) : d ≠ [] → d.all isDigit = true →
      digitsValue d = es.length → (∀ e ∈ es, WellFormed e) →
      WellFormed ([ARRAY] ++ d ++ [CR, LF] ++ es.flatten)

/-- A well-formed encoding whose lengths and counts are written the shortest way:
decimal digits without a sign and without leading zeros. -/
inductive Canonical : List Byte → Prop
  | bulk (p : List Byte) :
      Canonical ([BULK] ++ decimalDigits p.length ++ [CR, LF] ++ p ++ [CR, LF])
  | array (es : List (List Byte)) : (∀ e ∈ es, Canonical e) →
      Canonical ([ARRAY] ++ decimalDigits es.length ++ [CR, LF] ++ es.flatten)

/-- Successive calls of `Read`: `ReadSeq r vs r1` says that, starting from the decoder
state `r`, one call of `Read` after the other returns the values `vs`, in this order and
each with a nil error, and that the last call leaves the decoder in the state `r1`. -/
inductive ReadSeq : Resp → List Value → Resp → Prop
  | nil (r : Resp) : ReadSeq r [] r
  | cons (r r1 r2 : Resp) (v : Value) (vs : List Value) :
      r.Read = .ret (v, none) r1 → ReadSeq r1 vs r2 → ReadSeq r (v :: vs) r2

/-- The loop of `readArray`, counting calls: `read` returns its outcome together with the
number of calls of `Read` it made, and the loop adds these numbers up. -/
def arrayLoopCount (read : Resp → Outcome (Value × Option GoError) × Nat) :
    Nat → Nat → List Value → Resp → Outcome (Value × Option GoError) × Nat
  | 0, _, arr, r => (.ret (.mk "array" [] 0 [] arr, none) r, 0)
  | k + 1, i, arr, r =>
    match read r with
    | (.panic, c) => (.panic, c)
    | (.fuel, c) => (.fuel, c)
    | (.ret (_, some err) r1, c) => (.ret (.mk "array" [] 0 [] arr, some err) r1, c)
    | (.ret (val, none) r1, c) =>
      ((arrayLoopCount read k (i + 1) (arr.set i val) r1).1,
        c + (arrayLoopCount read k (i + 1) (arr.set i val) r1).2)

/-- The method `readArray`, counting the calls of `Read` made for its elements. -/
def Resp.readArrayCount (read : Resp → Outcome (Value × Option GoError) × Nat) (r : Resp) :
    Outcome (Value × Option GoError) × Nat :=
  match r.readInteger with
  | .panic => (.panic, 0)
  | .fuel => (.fuel, 0)
  | .ret (_, _, some err) r1 => (.ret (Value.zero, some err) r1, 0)
  | .ret (length, _, none) r1 =>
    if makePanics sizeofValue length then (.panic, 0)
    else arrayLoopCount read length.toNat 0 (List.replicate length.toNat Value.zero) r1

/-- The method `Read` together with the number of calls of `Read` that one call makes,
itself included. -/
def ReadFuelCount : Nat → Resp → Outcome (Value × Option GoError) × Nat
  | 0, _ => (.fuel, 0)
  | fuel + 1, r =>
    match r.reader.ReadByte with
    | (none, rd1) => (.ret (Value.zero, some .eof) { reader := rd1 }, 1)
    | (some typ, rd1) =>
      if typ = ARRAY then
        ((Resp.readArrayCount (ReadFuelCount fuel) { reader := rd1 }).1,
          (Resp.readArrayCount (ReadFuelCount fuel) { reader := rd1 }).2 + 1)
      else if typ = BULK then (Resp.readBulk { reader := rd1 }, 1)
      else (.ret (Value.zero, none) { reader := rd1 }, 1)

/-- The number of calls of `Read` that the call `r.Read` makes, itself included. -/
def Resp.ReadCalls (r : Resp) : Nat := (ReadFuelCount (r.rest.length + 1) r).2

/-- Bound on the number `c` of calls of `Read` made from the state `r`: each call that
returned without error is paid for by a byte it consumed, and at most one call failed. -/
def CallsBound (o : Outcome (Value × Option GoError)) (c : Nat) (r : Resp) : Prop :=
  match o with
  | .ret (_, none) r1 => c + r1.rest.length ≤ r.rest.length
  | .ret (_, some _) r1 => c + r1.rest.length ≤ r.rest.length + 1
  | .panic => c ≤ r.rest.length
  | .fuel => False

end Redis

/-! ## Lemmas on the buffered reader -/

namespace bufio.Reader

open Redis (Byte)

theorem cap_pos (b : Reader) : 0 < b.cap := by
  unfold cap
  omega

theorem srcRead_flatten (n : Nat) (cs : List (List Byte)) :
    (srcRead n cs).1 ++ (srcRead n cs).2.flatten = cs.flatten := by
  induction cs with
  | nil => simp [srcRead]
  | cons c cs ih =>
    cases c with
    | nil => simpa [srcRead] using ih
    | cons x c =>
      simp only [srcRead, List.flatten_cons]
      rw [← List.append_assoc, List.take_append_drop]

theorem srcRead_eq_nil (n : Nat) (hn : 0 < n) (cs : List (List Byte))
    (h : (srcRead n cs).1 = []) : cs.flatten = [] := by
  induction cs with
  | nil => rfl
  | cons c cs ih =>
    cases c with
    | nil => simpa [srcRead] using ih (by simpa [srcRead] using h)
    | cons x c =>
      exfalso
      obtain ⟨m, rfl⟩ : ∃ m, n = m + 1 := ⟨n - 1, by omega⟩
      simp [srcRead] at h

/-- With a byte left in the source, `ReadByte` returns it and consumes exactly it. -/
theorem ReadByte_cons (b : Reader) (c : Byte) (rest : List Byte)
    (h : b.content = c :: rest) :
    ∃ b1, b.ReadByte = (some c, b1) ∧ b1.content = rest ∧ b1.size = b.size := by
  unfold content at h
  cases hb : b.buf with
  | cons d ds =>
    rw [hb] at h
    simp only [List.cons_append, List.cons.injEq] at h
    refine ⟨{ b with buf := ds }, ?_, ?_, rfl⟩
    · simp [ReadByte, hb, h.1]
    · simpa [content] using h.2
  | nil =>
    rw [hb] at h
    simp only [List.nil_append] at h
    have hfl := srcRead_flatten b.cap b.rd
    rcases hres : srcRead b.cap b.rd with ⟨got, rd1⟩
    rw [hres] at hfl
    simp only at hfl
    cases got with
    | nil =>
      exfalso
      have := srcRead_eq_nil b.cap b.cap_pos b.rd (by rw [hres])
      rw [this] at h
      cases h
    | cons d ds =>
      rw [h] at hfl
      simp only [List.cons_append, List.cons.injEq] at hfl
      refine ⟨{ b with buf := ds, rd := rd1 }, ?_, ?_, rfl⟩
      · simp [ReadByte, hb, hres, hfl.1]
      · simpa [content] using hfl.2

/-- At the end of the source `ReadByte` reports `io.EOF`. -/
theorem ReadByte_nil (b : Reader) (h : b.content = []) :
    ∃ b1, b.ReadByte = (none, b1) ∧ b1.content = [] ∧ b1.size = b.size := by
  unfold content at h
  have hb : b.buf = [] := (List.append_eq_nil.mp h).1
  have hrd : b.rd.flatten = [] := (List.append_eq_nil.mp h).2
  have hfl := srcRead_flatten b.cap b.rd
  rcases hres : srcRead b.cap b.rd with ⟨got, rd1⟩
  rw [hres, hrd] at hfl
  simp only at hfl
  have hgot : got = [] := (List.append_eq_nil.mp hfl).1
  have hrd1 : rd1.flatten = [] := (List.append_eq_nil.mp hfl).2
  subst hgot
  refine ⟨{ b with rd := rd1 }, ?_, ?_, rfl⟩
  · simp [ReadByte, hb, hres]
  · simp [content, hb, hrd1]

end bufio.Reader

namespace Redis

/-! ## The line reader -/

theorem line_continue (acc : List Byte) (b : Byte) (h : CR ∉ acc) :
    ¬ ((acc ++ [b]).length ≥ 2 ∧ (acc ++ [b]).getD ((acc ++ [b]).length - 2) 0 = CR) := by
  rintro ⟨hlen, hget⟩
  simp only [List.length_append, List.length_singleton] at hlen hget
  have hlt : acc.length - 1 < acc.length := by omega
  have h2 : acc.length + 1 - 2 = acc.length - 1 := by omega
  rw [h2, List.getD_append _ _ _ _ hlt, List.getD_eq_getElem _ _ hlt] at hget
  exact h (hget ▸ List.getElem_mem hlt)

theorem line_stop (acc : List Byte) (x : Byte) :
    (acc ++ [CR] ++ [x]).length ≥ 2 ∧
      (acc ++ [CR] ++ [x]).getD ((acc ++ [CR] ++ [x]).length - 2) 0 = CR := by
  constructor
  · simp
  · have h2 : (acc ++ [CR] ++ [x]).length - 2 = acc.length := by simp
    rw [h2, List.append_assoc, List.getD_append_right _ _ _ _ (le_refl _)]
    simp

/-- The loop of `readLine` on a source that continues with `L`, a CR and one more byte
`x`, where `L` has no CR: it returns the accumulated line extended by `L` and has
consumed `L`, the CR and `x`. -/
theorem readLineLoop_line (L : List Byte) :
    ∀ (fuel : Nat) (r : Resp) (acc : List Byte) (n : Nat) (x : Byte) (rest : List Byte),
      CR ∉ L → CR ∉ acc → r.rest = L ++ CR :: x :: rest → L.length + 2 ≤ fuel →
      ∃ r1, readLineLoop fuel r acc n = .ret (acc ++ L, n + L.length + 2, none) r1 ∧
        r1.rest = rest ∧ r1.reader.size = r.reader.size := by
  induction L with
  | nil =>
    intro fuel r acc n x rest _ hacc hr hfuel
    obtain ⟨f, rfl⟩ : ∃ f, fuel = f + 2 := ⟨fuel - 2, by simp at hfuel; omega⟩
    obtain ⟨b1, hb1, hc1, hs1⟩ := bufio.Reader.ReadByte_cons r.reader CR (x :: rest) hr
    obtain ⟨b2, hb2, hc2, hs2⟩ := bufio.Reader.ReadByte_cons b1 x rest hc1
    refine ⟨{ reader := b2 }, ?_, hc2, by simp [hs2, hs1]⟩
    rw [readLineLoop]
    simp only [hb1]
    rw [if_neg (line_continue acc CR hacc), readLineLoop]
    simp only [hb2]
    rw [if_pos (line_stop acc x)]
    simp
  | cons a L ih =>
    intro fuel r acc n x rest hL hacc hr hfuel
    obtain ⟨f, rfl⟩ : ∃ f, fuel = f + 1 := ⟨fuel - 1, by simp at hfuel; omega⟩
    have ha : CR ≠ a := fun h => hL (h ▸ List.mem_cons_self _ _)
    have hL1 : CR ∉ L := fun h => hL (List.mem_cons_of_mem _ h)
    obtain ⟨b1, hb1, hc1, hs1⟩ :=
      bufio.Reader.ReadByte_cons r.reader a (L ++ CR :: x :: rest) hr
    have hacc1 : CR ∉ acc ++ [a] := by
      simp only [List.mem_append, List.mem_singleton, not_or]
      exact ⟨hacc, ha⟩
    obtain ⟨r1, h1, h2, h3⟩ := ih f { reader := b1 } (acc ++ [a]) (n + 1) x rest hL1 hacc1 hc1
      (by simp at hfuel; omega)
    refine ⟨r1, ?_, h2, by simp [h3, hs1]⟩
    rw [readLineLoop]
    simp only [hb1]
    rw [if_neg (line_continue acc a hacc), h1]
    simp [List.append_assoc, Nat.add_assoc, Nat.add_comm, Nat.add_left_comm]

/-- The method `readLine` on a source starting with `L`, a CR and one more byte. -/
theorem readLine_line (r : Resp) (L : List Byte) (x : Byte) (rest : List Byte)
    (hL : CR ∉ L) (hr : r.rest = L ++ CR :: x :: rest) :
    ∃ r1, r.readLine = .ret (L, L.length + 2, none) r1 ∧
      r1.rest = rest ∧ r1.reader.size = r.reader.size := by
  obtain ⟨r1, h1, h2, h3⟩ := readLineLoop_line L (r.rest.length + 1) r [] 0 x rest hL
    (by simp) hr (by rw [hr]; simp only [List.length_append, List.length_cons]; omega)
  exact ⟨r1, by simpa [Resp.readLine] using h1, h2, h3⟩

/-! ## The library conversions -/

theorem itoaLoop_eq (fuel : Nat) :
    ∀ (u : Nat) (acc : List Byte), u < fuel → itoaLoop fuel u acc = decimalDigits u ++ acc := by
  induction fuel with
  | zero => intro u acc h; omega
  | succ f ih =>
    intro u acc h
    rw [itoaLoop]
    by_cases hu : u < 10
    · rw [if_pos hu]
      by_cases h0 : u = 0
      · subst h0; simp [decimalDigits]
      · have : Nat.digits 10 u = [u] := Nat.digits_of_lt 10 u h0 hu
        simp [decimalDigits, h0, this]
    · rw [if_neg hu, ih (u / 10) _ (by omega)]
      have h0 : u ≠ 0 := by omega
      have h1 : u / 10 ≠ 0 := by omega
      have hd : Nat.digits 10 u = (u % 10) :: Nat.digits 10 (u / 10) :=
        Nat.digits_def' (by norm_num) (by omega)
      simp [decimalDigits, h0, h1, hd]

/-- For a length, `strconv.Itoa` writes its decimal digits. -/
theorem Itoa_natCast (n : Nat) : Itoa (n : Int) = decimalDigits n := by
  have h : ¬ ((n : Int) < 0) := by omega
  simp only [Itoa, if_neg h, Int.natAbs_ofNat]
  simpa using itoaLoop_eq (n + 1) n [] (by omega)

theorem parseUintLoop_digits (t : List Byte) :
    ∀ (n m : Nat), parseUintLoop t n = .ok m → t.all isDigit = true := by
  induction t with
  | nil => intro n m _; rfl
  | cons c cs ih =>
    intro n m h
    rw [parseUintLoop] at h
    by_cases hc : 48 ≤ c ∧ c ≤ 57
    · rw [if_pos hc] at h
      by_cases h1 : n ≥ (2 ^ 64 - 1) / 10 + 1
      · rw [if_pos h1] at h; cases h
      · rw [if_neg h1] at h
        by_cases h2 : n * 10 + (c - 48) > 2 ^ 64 - 1
        · rw [if_pos h2] at h; cases h
        · rw [if_neg h2] at h
          simp [isDigit, hc, ih _ _ h]
    · rw [if_neg hc] at h; cases h

/-- A line that is not a decimal integer as text is rejected by `ParseInt`. -/
theorem ParseInt_error (L : List Byte) (h : isDecimalInt L = false) :
    ∃ e, ParseInt L = .error e := by
  cases L with
  | nil => exact ⟨_, rfl⟩
  | cons c cs =>
    have key : (if c = 43 ∨ c = 45 then cs else c :: cs) = [] ∨
        ∃ e, parseUintLoop (if c = 43 ∨ c = 45 then cs else c :: cs) 0 = .error e := by
      by_contra hcon
      rw [not_or] at hcon
      obtain ⟨ht, hp⟩ := hcon
      cases hp1 : parseUintLoop (if c = 43 ∨ c = 45 then cs else c :: cs) 0 with
      | error e => exact hp ⟨e, hp1⟩
      | ok un =>
        have hd := parseUintLoop_digits _ _ _ hp1
        rw [isDecimalInt] at h
        by_cases hs : c = 43 ∨ c = 45
        · rw [if_pos hs] at h hd ht
          rw [hd] at h
          cases cs with
          | nil => exact ht rfl
          | cons d ds => simp at h
        · rw [if_neg hs] at h hd
          rw [hd] at h
          cases h
    simp only [ParseInt]
    rcases key with h1 | ⟨e, h1⟩
    · rw [if_pos h1]; exact ⟨_, rfl⟩
    · by_cases ht : (if c = 43 ∨ c = 45 then cs else c :: cs) = []
      · rw [if_pos ht]; exact ⟨_, rfl⟩
      · rw [if_neg ht, h1]
        cases e <;> exact ⟨_, rfl⟩

/-! ## The encoder -/

theorem marshalElems_eq (es : List Value) :
    marshalElems es = (es.map Value.Marshal).flatten := by
  induction es with
  | nil => simp [marshalElems]
  | cons e es ih => simp [marshalElems, ih]

/-- Claim C3. Marshal of a value with typ `"bulk"` and payload `p` of `N` bytes is
exactly `$`, the decimal ASCII digits of `N`, CR LF, the bytes of `p` unchanged, CR LF,
whatever bytes `p` holds and whatever the other fields are. -/
theorem Marshal_bulk (s : List Byte) (n : Int) (p : List Byte) (a : List Value) :
    (Value.mk "bulk" s n p a).Marshal = [BULK] ++ decimalDigits p.length ++ [CR, LF] ++ p ++ [CR, LF] := by
  rw [Value.Marshal]
  simp [Value.marshalBulk, Value.bulk, Itoa_natCast]

/-- Claim C4. Marshal of a value with typ `"array"` and elements `es` is exactly `*`,
the decimal ASCII digits of the number of elements, CR LF, and then the encodings of
the elements in order, with nothing after the last one. -/
theorem Marshal_array (s : List Byte) (n : Int) (b : List Byte) (es : List Value) :
    (Value.mk "array" s n b es).Marshal =
      [ARRAY] ++ decimalDigits es.length ++ [CR, LF] ++ (es.map Value.Marshal).flatten := by
  rw [Value.Marshal]
  simp [Itoa_natCast, marshalElems_eq]

/-! ## The decoder -/

/-- On a line that is not a decimal integer `readInteger` fails after consuming the
line and its terminator. -/
theorem readInteger_error (r : Resp) (L : List Byte) (x : Byte) (rest : List Byte)
    (hL : CR ∉ L) (hbad : isDecimalInt L = false) (hr : r.rest = L ++ CR :: x :: rest) :
    ∃ e r1, r.readInteger = .ret (0, L.length + 2, some e) r1 ∧ r1.rest = rest := by
  obtain ⟨r1, h1, h2, _⟩ := readLine_line r L x rest hL hr
  obtain ⟨e, he⟩ := ParseInt_error L hbad
  exact ⟨e, r1, by simp [Resp.readInteger, h1, he], h2⟩

/-- One step of `Read` on a source that starts with the byte `c`. -/
theorem Read_cons (r : Resp) (c : Byte) (rest : List Byte) (hr : r.rest = c :: rest) :
    ∃ b1 : bufio.Reader, b1.content = rest ∧ b1.size = r.reader.size ∧
      r.Read =
        if c = ARRAY then Resp.readArray (ReadFuel (r.rest.length)) { reader := b1 }
        else if c = BULK then Resp.readBulk { reader := b1 }
        else .ret (Value.zero, none) { reader := b1 } := by
  obtain ⟨b1, hb1, hc1, hs1⟩ := bufio.Reader.ReadByte_cons r.reader c rest hr
  refine ⟨b1, hc1, hs1, ?_⟩
  rw [Resp.Read, ReadFuel]
  simp only [hb1]

/-- Claim C7, amended. When the first byte of the source is none of the five tags,
`Read` consumes that byte and returns the empty value with a nil error. -/
theorem Read_unknown_tag (r : Resp) (c : Byte) (rest : List Byte)
    (hc : isTag c = false) (hr : r.rest = c :: rest) :
    ∃ r1, r.Read = .ret (Value.zero, none) r1 ∧ r1.rest = rest := by
  obtain ⟨b1, hc1, _, h⟩ := Read_cons r c rest hr
  simp only [isTag, decide_eq_false_iff_not, not_or] at hc
  refine ⟨{ reader := b1 }, ?_, hc1⟩
  rw [h, if_neg hc.2.2.2.2, if_neg hc.2.2.2.1]

theorem Read_unknown_tag_witness :
    isTag 33 = false ∧ (NewResp [[33, 13, 10]]).rest = [33, 13, 10] ∧
      ∃ r1, (NewResp [[33, 13, 10]]).Read = .ret (Value.zero, none) r1 ∧ r1.rest = [13, 10] :=
  ⟨by decide, by decide, Read_unknown_tag (NewResp [[33, 13, 10]]) 33 [13, 10] (by decide) (by decide)⟩

/-- Claim C7 as stated fails: on the one-byte input `!` the method `Read` returns no
error. -/
theorem Read_unknown_tag_no_error :
    ¬ ∃ v e r1, (NewResp [[33]]).Read = Outcome.ret (v, some e) r1 := by
  rintro ⟨v, e, r1, h⟩
  have h2 : (NewResp [[33]]).Read = .ret (Value.zero, none) ⟨⟨[], [[]], 4096⟩⟩ := rfl
  rw [h2] at h
  injection h with h3 _
  injection h3 with _ h4
  cases h4

/-- Claim C9. When the line after the tag `$` or `*` has no CR and is not a decimal
integer, `Read` returns an error and has consumed exactly the tag, the line and its
CR LF: what is left of the source is `rest`. -/
theorem Read_malformed_length (r : Resp) (tag : Byte) (L rest : List Byte)
    (htag : tag = BULK ∨ tag = ARRAY) (hL : CR ∉ L) (hbad : isDecimalInt L = false)
    (hr : r.rest = [tag] ++ L ++ [CR, LF] ++ rest) :
    ∃ v e r1, r.Read = .ret (v, some e) r1 ∧ r1.rest = rest := by
  have hr1 : r.rest = tag :: (L ++ CR :: LF :: rest) := by simpa using hr
  obtain ⟨b1, hc1, _, h⟩ := Read_cons r tag _ hr1
  obtain ⟨e, r1, he, hrest⟩ := readInteger_error { reader := b1 } L LF rest hL hbad hc1
  rcases htag with rfl | rfl
  · refine ⟨.mk "bulk" [] 0 [] [], e, r1, ?_, hrest⟩
    rw [h, if_neg (by decide), if_pos rfl]
    simp [Resp.readBulk, he]
  · refine ⟨Value.zero, e, r1, ?_, hrest⟩
    rw [h, if_pos rfl]
    simp [Resp.readArray, he]

theorem Read_malformed_length_witness :
    ((36 : Byte) = BULK ∨ (36 : Byte) = ARRAY) ∧ CR ∉ [97, 98, 99] ∧
      isDecimalInt [97, 98, 99] = false ∧
      (NewResp [[36, 97, 98, 99, 13, 10, 120, 121]]).rest = [36] ++ [97, 98, 99] ++ [CR, LF] ++ [120, 121] ∧
      ∃ v e r1, (NewResp [[36, 97, 98, 99, 13, 10, 120, 121]]).Read = .ret (v, some e) r1 ∧
        r1.rest = [120, 121] :=
  ⟨by decide, by decide, by decide, by decide,
    Read_malformed_length (NewResp [[36, 97, 98, 99, 13, 10, 120, 121]]) 36 [97, 98, 99] [120, 121]
      (by decide) (by decide) (by decide) (by decide)⟩

/-! ## Evaluations of the decoder on concrete sources -/

/-- Claim C1 fails on the code: the encoding `$5\r\nhello\r\n` of the bulk string `hello`,
delivered by the source in the two pieces `$5\r\nhe` and `llo\r\n`, is decoded with a nil
error as the bulk string `he\0\0\0`. -/
theorem Read_Marshal_two_pieces :
    (Value.mk "bulk" [] 0 [104, 101, 108, 108, 111] []).Marshal =
        [36, 53, 13, 10, 104, 101] ++ [108, 108, 111, 13, 10] ∧
      (NewResp [[36, 53, 13, 10, 104, 101], [108, 108, 111, 13, 10]]).Read =
        .ret (Value.mk "bulk" [] 0 [104, 101, 0, 0, 0] [], none) ⟨⟨[], [[]], 4096⟩⟩ :=
  ⟨by rfl, by rfl⟩

/-- Claim C2 fails on the code: the encoding `$3\r\na\rb\r\n` followed by `$1\r\nx\r\n`,
delivered in the two pieces `$3\r\na` and `\rb\r\n$1\r\nx\r\n`, leaves the source at
`\r\n$1\r\nx\r\n` after one `Read`: two bytes of the first value are still unread. -/
theorem Read_framing_two_pieces :
    (Value.mk "bulk" [] 0 [97, 13, 98] []).Marshal ++ [36, 49, 13, 10, 120, 13, 10] =
        [36, 51, 13, 10, 97] ++ [13, 98, 13, 10, 36, 49, 13, 10, 120, 13, 10] ∧
      (NewResp [[36, 51, 13, 10, 97], [13, 98, 13, 10, 36, 49, 13, 10, 120, 13, 10]]).Read =
        .ret (Value.mk "bulk" [] 0 [97, 0, 0] [], none)
          ⟨⟨[13, 10, 36, 49, 13, 10, 120, 13, 10], [[]], 4096⟩⟩ :=
  ⟨by rfl, by rfl⟩

/-- Claim C5 fails on the code: on the input `$-1\r\n` the method `Read` panics, in
`make([]byte, len)` with `len = -1`. -/
theorem Read_null_bulk_panics :
    (NewResp [[36, 45, 49, 13, 10]]).Read = .panic := by
  rfl

/-- Claim C6 fails on the code: on the input `*-1\r\n` the method `Read` panics, in
`make([]Value, length)` with `length = -1`. -/
theorem Read_null_array_panics :
    (NewResp [[42, 45, 49, 13, 10]]).Read = .panic := by
  rfl

/-- Claim C8 fails on the code: on the truncated input `$5\r\nhel` the method `Read`
returns a nil error and the bulk string `hel\0\0`. -/
theorem Read_truncated_bulk :
    (NewResp [[36, 53, 13, 10, 104, 101, 108]]).Read =
      .ret (Value.mk "bulk" [] 0 [104, 101, 108, 0, 0] [], none) ⟨⟨[], [], 4096⟩⟩ := by
  rfl

/-- Claim C10 fails on the code: on the input `*2\r\n$1\r\na\r\n`, an array of two
elements of which only the first is present, `Read` returns the error `io.EOF` together
with an array value that holds the first element and an empty second one. -/
theorem Read_error_with_value :
    (NewResp [[42, 50, 13, 10, 36, 49, 13, 10, 97, 13, 10]]).Read =
      .ret (Value.mk "array" [] 0 [] [Value.mk "bulk" [] 0 [97] [], Value.zero], some .eof)
        ⟨⟨[], [], 4096⟩⟩ := by
  rfl

/-! ## Decimal text read back -/

theorem digit_range (d : Nat) (h : d < 10) : (48 : Nat) ≤ 48 + d ∧ 48 + d ≤ 57 := by
  constructor <;> omega

theorem parseUintLoop_map (ds : List Nat) :
    ∀ acc : Nat, (∀ d ∈ ds, d < 10) →
      acc * 10 ^ ds.length + Nat.ofDigits 10 ds.reverse < 2 ^ 64 →
      parseUintLoop (ds.map fun d => 48 + d) acc =
        .ok (acc * 10 ^ ds.length + Nat.ofDigits 10 ds.reverse) := by
  induction ds with
  | nil => intro acc _ _; simp [parseUintLoop]
  | cons d ds ih =>
    intro acc hd hlt
    have hd10 : d < 10 := hd d (List.mem_cons_self _ _)
    have hval : acc * 10 ^ (d :: ds).length + Nat.ofDigits 10 (d :: ds).reverse =
        (acc * 10 + d) * 10 ^ ds.length + Nat.ofDigits 10 ds.reverse := by
      simp only [List.length_cons, List.reverse_cons, Nat.ofDigits_append, List.length_reverse,
        Nat.ofDigits_singleton]
      ring
    rw [hval] at hlt
    rw [hval]
    have hpow : 1 ≤ 10 ^ ds.length := Nat.one_le_pow _ _ (by norm_num)
    have hle : acc * 10 + d ≤ (acc * 10 + d) * 10 ^ ds.length := Nat.le_mul_of_pos_right _ hpow
    have hsmall : acc * 10 + d < 2 ^ 64 :=
      lt_of_le_of_lt (le_trans hle (Nat.le_add_right _ _)) hlt
    have h1 : ¬ acc ≥ (2 ^ 64 - 1) / 10 + 1 := by
      norm_num at hsmall ⊢
      omega
    have h2 : ¬ acc * 10 + (48 + d - 48) > 2 ^ 64 - 1 := by
      norm_num at hsmall ⊢
      omega
    have h48 : 48 + d - 48 = d := by omega
    rw [List.map_cons, parseUintLoop, if_pos (digit_range d hd10), if_neg h1, if_neg h2, h48]
    exact ih (acc * 10 + d) (fun e he => hd e (List.mem_cons_of_mem _ he)) hlt

theorem decimalDigits_digit (n : Nat) : ∀ c ∈ decimalDigits n, 48 ≤ c ∧ c ≤ 57 := by
  intro c hc
  unfold decimalDigits at hc
  split_ifs at hc with h0
  · simp only [List.mem_singleton] at hc
    subst hc
    decide
  · simp only [List.mem_map, List.mem_reverse] at hc
    obtain ⟨d, hd, rfl⟩ := hc
    have := Nat.digits_lt_base (by norm_num : 1 < 10) hd
    exact digit_range d this

theorem decimalDigits_ne_nil (n : Nat) : decimalDigits n ≠ [] := by
  unfold decimalDigits
  split_ifs with h0
  · simp
  · simpa [Nat.digits_eq_nil_iff_eq_zero] using h0

theorem decimalDigits_no_CR (n : Nat) : CR ∉ decimalDigits n := by
  intro h
  have := (decimalDigits_digit n CR h).1
  revert this
  decide

theorem parseUintLoop_decimalDigits (n : Nat) (h : n < 2 ^ 64) :
    parseUintLoop (decimalDigits n) 0 = .ok n := by
  unfold decimalDigits
  split_ifs with h0
  · subst h0; rfl
  · have := parseUintLoop_map (Nat.digits 10 n).reverse 0
      (fun d hd => Nat.digits_lt_base (by norm_num) (List.mem_reverse.mp hd))
      (by simpa [Nat.ofDigits_digits] using h)
    simpa [Nat.ofDigits_digits] using this

/-- The decimal digits of a number in the range of a Go `int` are read back by
`ParseInt` as that number. -/
theorem ParseInt_decimalDigits (n : Nat) (h : n < 2 ^ 63) :
    ParseInt (decimalDigits n) = .ok (n : Int) := by
  have hp := parseUintLoop_decimalDigits n (lt_trans h (by norm_num))
  have hdig := decimalDigits_digit n
  have hne := decimalDigits_ne_nil n
  cases hs : decimalDigits n with
  | nil => exact absurd hs hne
  | cons c cs =>
    rw [hs] at hp hdig
    have hc := hdig c (List.mem_cons_self _ _)
    have h43 : ¬ (c = 43 ∨ c = 45) := by
      rintro (rfl | rfl) <;> exact absurd hc.1 (by decide)
    have h45 : ¬ c = 45 := fun h => h43 (Or.inr h)
    have hge : ¬ n ≥ 2 ^ 63 := not_le.mpr h
    unfold ParseInt
    simp only [if_neg h43, hp]
    rw [if_neg (by simp), if_neg (fun hh => hge hh.2), if_neg (fun hh => h45 hh.1), if_neg h45]

/-! ## Decoding an encoding that is in the buffer -/

theorem ReadByte_buf (b : bufio.Reader) (c : Byte) (cs : List Byte) (h : b.buf = c :: cs) :
    b.ReadByte = (some c, ⟨cs, b.rd, b.size⟩) := by
  simp [bufio.Reader.ReadByte, h]

theorem readLineLoop_buf (L : List Byte) :
    ∀ (fuel : Nat) (r : Resp) (acc : List Byte) (n : Nat) (x : Byte) (tail : List Byte),
      CR ∉ L → CR ∉ acc → r.reader.buf = L ++ CR :: x :: tail → L.length + 2 ≤ fuel →
      readLineLoop fuel r acc n =
        .ret (acc ++ L, n + L.length + 2, none) ⟨⟨tail, r.reader.rd, r.reader.size⟩⟩ := by
  induction L with
  | nil =>
    intro fuel r acc n x tail _ hacc hr hfuel
    obtain ⟨f, rfl⟩ : ∃ f, fuel = f + 2 := ⟨fuel - 2, by simp at hfuel; omega⟩
    rw [readLineLoop]
    simp only [ReadByte_buf r.reader CR (x :: tail) hr]
    rw [if_neg (line_continue acc CR hacc), readLineLoop]
    simp only [ReadByte_buf ⟨x :: tail, r.reader.rd, r.reader.size⟩ x tail rfl]
    rw [if_pos (line_stop acc x)]
    simp
  | cons a L ih =>
    intro fuel r acc n x tail hL hacc hr hfuel
    obtain ⟨f, rfl⟩ : ∃ f, fuel = f + 1 := ⟨fuel - 1, by simp at hfuel; omega⟩
    have ha : CR ≠ a := fun h => hL (h ▸ List.mem_cons_self _ _)
    have hL1 : CR ∉ L := fun h => hL (List.mem_cons_of_mem _ h)
    have hacc1 : CR ∉ acc ++ [a] := by
      simp only [List.mem_append, List.mem_singleton, not_or]
      exact ⟨hacc, ha⟩
    rw [readLineLoop]
    simp only [ReadByte_buf r.reader a (L ++ CR :: x :: tail) hr]
    rw [if_neg (line_continue acc a hacc),
      ih f ⟨⟨L ++ CR :: x :: tail, r.reader.rd, r.reader.size⟩⟩ (acc ++ [a]) (n + 1) x tail hL1 hacc1
        rfl (by simp at hfuel; omega)]
    simp [List.append_assoc, Nat.add_assoc, Nat.add_comm, Nat.add_left_comm]

theorem readLine_buf (r : Resp) (L : List Byte) (x : Byte) (tail : List Byte)
    (hL : CR ∉ L) (hr : r.reader.buf = L ++ CR :: x :: tail) :
    r.readLine = .ret (L, L.length + 2, none) ⟨⟨tail, r.reader.rd, r.reader.size⟩⟩ := by
  have h := readLineLoop_buf L (r.rest.length + 1) r [] 0 x tail hL (by simp) hr
    (by simp only [Resp.rest, bufio.Reader.content, hr, List.length_append, List.length_cons]; omega)
  simpa [Resp.readLine] using h

theorem readInteger_buf (r : Resp) (n : Nat) (tail : List Byte) (hn : n < 2 ^ 63)
    (hr : r.reader.buf = decimalDigits n ++ CR :: LF :: tail) :
    r.readInteger =
      .ret ((n : Int), (decimalDigits n).length + 2, none) ⟨⟨tail, r.reader.rd, r.reader.size⟩⟩ := by
  simp [Resp.readInteger, readLine_buf r _ LF tail (decimalDigits_no_CR n) hr,
    ParseInt_decimalDigits n hn]

theorem Reader_Read_buf (b : bufio.Reader) (p tail : List Byte) (h : b.buf = p ++ tail) :
    b.Read p.length = (p, ⟨tail, b.rd, b.size⟩) := by
  cases p with
  | nil =>
    cases b
    simp only [List.nil_append] at h
    simp [bufio.Reader.Read, h]
  | cons c cs =>
    simp only [List.cons_append] at h
    simp [bufio.Reader.Read, h]

theorem maxAlloc_lt (n : Nat) (h : n ≤ maxAlloc) : n < 2 ^ 63 := by
  unfold maxAlloc at h
  norm_num at h ⊢
  omega

theorem makePanics_natCast (size n : Nat) (h : size * n ≤ maxAlloc) :
    ¬ makePanics size (n : Int) = true := by
  simp only [makePanics, Bool.or_eq_true, decide_eq_true_eq, Int.toNat_ofNat, not_or]
  exact ⟨by omega, by omega⟩

theorem sizeofValue_le (n : Nat) (h : sizeofValue * n ≤ maxAlloc) : n ≤ maxAlloc := by
  unfold sizeofValue at h
  omega

theorem readBulk_buf (r : Resp) (p tail : List Byte) (hp : p.length ≤ maxAlloc)
    (hr : r.reader.buf = decimalDigits p.length ++ CR :: LF :: (p ++ CR :: LF :: tail)) :
    r.readBulk = .ret (.mk "bulk" [] 0 p [], none) ⟨⟨tail, r.reader.rd, r.reader.size⟩⟩ := by
  have hnn := makePanics_natCast 1 p.length (by omega)
  rw [Resp.readBulk, readInteger_buf r p.length _ (maxAlloc_lt _ hp) hr]
  simp only [if_neg hnn, Int.toNat_ofNat]
  rw [Reader_Read_buf ⟨p ++ CR :: LF :: tail, r.reader.rd, r.reader.size⟩ p (CR :: LF :: tail) rfl]
  simp only [Nat.sub_self, List.replicate_zero, List.append_nil]
  rw [readLine_buf ⟨⟨CR :: LF :: tail, r.reader.rd, r.reader.size⟩⟩ [] LF tail (by simp) rfl]

theorem arrayLoop_buf (read : Resp → Outcome (Value × Option GoError)) (es : List Value) :
    ∀ (done : List Value) (r : Resp) (tail : List Byte),
      (∀ e ∈ es, ∀ (r : Resp) (tail : List Byte), r.reader.buf = e.Marshal ++ tail →
        read r = .ret (e, none) ⟨⟨tail, r.reader.rd, r.reader.size⟩⟩) →
      r.reader.buf = marshalElems es ++ tail →
      arrayLoop read es.length done.length (done ++ List.replicate es.length Value.zero) r =
        .ret (.mk "array" [] 0 [] (done ++ es), none) ⟨⟨tail, r.reader.rd, r.reader.size⟩⟩ := by
  induction es with
  | nil =>
    intro done r tail _ hr
    cases r with
    | mk b =>
      cases b
      simp only [marshalElems, List.nil_append] at hr
      simp [arrayLoop, hr]
  | cons e es ih =>
    intro done r tail hread hr
    simp only [marshalElems, List.append_assoc] at hr
    rw [List.length_cons, arrayLoop, hread e (List.mem_cons_self _ _) r _ hr]
    simp only []
    have hset : (done ++ List.replicate (es.length + 1) Value.zero).set done.length e =
        (done ++ [e]) ++ List.replicate es.length Value.zero := by
      simp [List.replicate_succ, List.set_append_right]
    have hlen : done.length + 1 = (done ++ [e]).length := by simp
    rw [hset, hlen,
      ih (done ++ [e]) ⟨⟨marshalElems es ++ tail, r.reader.rd, r.reader.size⟩⟩ tail
        (fun e1 he1 => hread e1 (List.mem_cons_of_mem _ he1)) rfl]
    simp

theorem Marshal_length_le (es : List Value) : ∀ e ∈ es, e.Marshal.length ≤ (marshalElems es).length := by
  induction es with
  | nil => intro e he; cases he
  | cons a es ih =>
    intro e he
    simp only [marshalElems, List.length_append]
    rcases List.mem_cons.mp he with rfl | h
    · omega
    · have := ih e h
      omega

/-- With the encoding of a plain value at the front of the buffer, `Read` (with fuel for
the nesting) returns that value with a nil error and has consumed exactly the encoding. -/
theorem ReadFuel_buf (v : Value) (hv : Plain v) :
    ∀ (fuel : Nat) (r : Resp) (tail : List Byte), v.Marshal.length ≤ fuel →
      r.reader.buf = v.Marshal ++ tail →
      ReadFuel fuel r = .ret (v, none) ⟨⟨tail, r.reader.rd, r.reader.size⟩⟩ := by
  induction hv with
  | bulk p hp =>
    intro fuel r tail hfuel hr
    rw [Marshal_bulk] at hfuel hr
    obtain ⟨f, rfl⟩ : ∃ f, fuel = f + 1 := ⟨fuel - 1, by simp at hfuel; omega⟩
    simp only [List.singleton_append, List.cons_append, List.append_assoc, List.nil_append] at hr
    rw [ReadFuel]
    simp only [ReadByte_buf r.reader BULK _ hr]
    rw [if_pos trivial]
    exact readBulk_buf ⟨⟨_, r.reader.rd, r.reader.size⟩⟩ p tail hp rfl
  | array es hlen _ ih =>
    intro fuel r tail hfuel hr
    rw [Marshal_array, ← marshalElems_eq] at hfuel hr
    obtain ⟨f, rfl⟩ : ∃ f, fuel = f + 1 := ⟨fuel - 1, by simp at hfuel; omega⟩
    simp only [List.singleton_append, List.cons_append, List.append_assoc, List.nil_append] at hr
    have hnn := makePanics_natCast sizeofValue es.length hlen
    rw [ReadFuel]
    simp only [ReadByte_buf r.reader ARRAY _ hr]
    rw [if_pos trivial, Resp.readArray,
      readInteger_buf ⟨⟨_, r.reader.rd, r.reader.size⟩⟩ es.length (marshalElems es ++ tail)
        (maxAlloc_lt _ (sizeofValue_le _ hlen)) rfl]
    simp only [if_neg hnn, Int.toNat_ofNat]
    have h := arrayLoop_buf (ReadFuel f) es [] ⟨⟨marshalElems es ++ tail, r.reader.rd, r.reader.size⟩⟩ tail
      (fun e he r1 tail1 hr1 => ih e he f r1 tail1 (by
        have := Marshal_length_le es e he
        simp only [List.length_append, List.length_cons, List.length_singleton] at hfuel
        omega) hr1) rfl
    simpa using h

theorem ReadFuel_congr (f : Nat) (r r1 : Resp) (h : r.reader.ReadByte = r1.reader.ReadByte) :
    ReadFuel (f + 1) r = ReadFuel (f + 1) r1 := by
  rw [ReadFuel, ReadFuel, h]

/-- Round trip and framing when the encoding is in the buffer: `Read` returns the
encoded plain value with a nil error and leaves in the buffer what followed the encoding. -/
theorem Read_Marshal_buffered (v : Value) (hv : Plain v) (r : Resp) (tail : List Byte)
    (hr : r.reader.buf = v.Marshal ++ tail) :
    r.Read = .ret (v, none) ⟨⟨tail, r.reader.rd, r.reader.size⟩⟩ := by
  apply ReadFuel_buf v hv _ r tail _ hr
  simp only [Resp.rest, bufio.Reader.content, hr, List.length_append]
  omega

theorem Marshal_ne_nil (v : Value) (hv : Plain v) : v.Marshal ≠ [] := by
  cases hv with
  | bulk p _ => rw [Marshal_bulk]; simp
  | array es _ _ => rw [Marshal_array]; simp

/-- Round trip and framing when a fresh decoder receives the encoding and what follows
it in one piece of at most 4096 bytes: `Read` returns the encoded plain value with a nil
error and has consumed exactly the encoding. -/
theorem Read_Marshal_one_piece (v : Value) (hv : Plain v) (tail : List Byte)
    (hlen : (v.Marshal ++ tail).length ≤ 4096) :
    (NewResp [v.Marshal ++ tail]).Read = .ret (v, none) ⟨⟨tail, [[]], 4096⟩⟩ := by
  cases hm : v.Marshal with
  | nil => exact absurd hm (Marshal_ne_nil v hv)
  | cons c m =>
    rw [hm] at hlen
    have htake : (c :: (m ++ tail)).take 4096 = c :: (m ++ tail) := List.take_of_length_le hlen
    have hdrop : (c :: (m ++ tail)).drop 4096 = [] := List.drop_of_length_le hlen
    have hbyte : (NewResp [c :: m ++ tail]).reader.ReadByte =
        (⟨⟨c :: (m ++ tail), [[]], 4096⟩⟩ : Resp).reader.ReadByte := by
      have hcap : (⟨[], [c :: (m ++ tail)], 4096⟩ : bufio.Reader).cap = 4096 := rfl
      simp only [NewResp, List.cons_append]
      rw [ReadByte_buf ⟨c :: (m ++ tail), [[]], 4096⟩ c (m ++ tail) rfl]
      rw [bufio.Reader.ReadByte]
      simp only [bufio.NewReader, bufio.Reader.srcRead, hcap, htake, hdrop]
    have h := ReadFuel_buf v hv ((NewResp [c :: m ++ tail]).rest.length + 1)
      ⟨⟨c :: (m ++ tail), [[]], 4096⟩⟩ tail
      (by simp only [hm, NewResp, bufio.NewReader, Resp.rest, bufio.Reader.content,
            List.length_append, List.length_cons, List.flatten_cons, List.flatten_nil,
            List.nil_append, List.append_nil, List.length_nil]; omega)
      (by simp [hm])
    rw [Resp.Read, ReadFuel_congr _ _ _ hbyte]
    exact h

/-! ## A payload that reaches past the buffer -/

theorem Reader_Read_short (b : bufio.Reader) (c : Byte) (cs : List Byte) (n : Nat)
    (h : b.buf = c :: cs) (hn : (c :: cs).length ≤ n) :
    b.Read n = (c :: cs, ⟨[], b.rd, b.size⟩) := by
  have hn0 : n ≠ 0 := by
    simp only [List.length_cons] at hn
    omega
  simp only [bufio.Reader.Read, if_neg hn0, h, List.take_of_length_le hn,
    List.drop_of_length_le hn]

/-- A bulk string whose encoding is held by an in-memory source (one that delivers as
much as is asked for) and is longer than the buffer: the payload is `q ++ s`, where the
tag, the length line and `q` fill the 4096 bytes of the buffer. `Read` copies only `q`;
the value returned with a nil error has zero bytes in the place of `s`. -/
theorem Read_Marshal_past_buffer (q s : List Byte) (hq : q ≠ []) (hs : CR ∉ s)
    (hN : (q ++ s).length ≤ maxAlloc)
    (hfill : 1 + (decimalDigits (q ++ s).length).length + 2 + q.length = 4096) :
    ∃ r1, (NewResp [(Value.mk "bulk" [] 0 (q ++ s) []).Marshal]).Read =
      .ret (Value.mk "bulk" [] 0 (q ++ List.replicate s.length 0) [], none) r1 := by
  have hM : (Value.mk "bulk" [] 0 (q ++ s) []).Marshal =
      (BULK :: (decimalDigits (q ++ s).length ++ CR :: LF :: q)) ++ (s ++ [CR, LF]) := by
    rw [Marshal_bulk]
    simp
  have hlen : (BULK :: (decimalDigits (q ++ s).length ++ CR :: LF :: q)).length = 4096 := by
    have h : ∀ D : List Byte, 1 + D.length + 2 + q.length = 4096 →
        (BULK :: (D ++ CR :: LF :: q)).length = 4096 := by
      intro D hD
      simp only [List.length_cons, List.length_append]
      omega
    exact h _ hfill
  have hbyte : (NewResp [(BULK :: (decimalDigits (q ++ s).length ++ CR :: LF :: q)) ++
        (s ++ [CR, LF])]).reader.ReadByte =
      (some BULK, ⟨decimalDigits (q ++ s).length ++ CR :: LF :: q, [s ++ [CR, LF]], 4096⟩) := by
    have hcap : ∀ c : List Byte, (⟨[], [c], 4096⟩ : bufio.Reader).cap = 4096 := fun _ => rfl
    have h1 := @List.take_left' Byte _ (s ++ [CR, LF]) _ hlen
    have h2 := @List.drop_left' Byte _ (s ++ [CR, LF]) _ hlen
    rw [List.cons_append] at h1 h2
    simp only [NewResp, bufio.NewReader, List.cons_append]
    rw [bufio.Reader.ReadByte]
    simp only [bufio.Reader.srcRead, hcap, h1, h2]
  obtain ⟨r1, hline, _, _⟩ := readLine_line ⟨⟨[], [s ++ [CR, LF]], 4096⟩⟩ s LF [] hs
    (by simp [Resp.rest, bufio.Reader.content])
  obtain ⟨c, cs, hcs⟩ : ∃ c cs, q = c :: cs := List.exists_cons_of_ne_nil hq
  have hnn := makePanics_natCast 1 (q ++ s).length (by omega)
  refine ⟨r1, ?_⟩
  rw [hM, Resp.Read, ReadFuel]
  simp only [hbyte]
  rw [if_pos trivial, Resp.readBulk,
    readInteger_buf _ (q ++ s).length q (maxAlloc_lt _ hN) rfl]
  simp only [if_neg hnn, Int.toNat_ofNat]
  rw [Reader_Read_short ⟨q, _, _⟩ c cs (q ++ s).length hcs (by rw [← hcs]; simp)]
  simp only [hline, ← hcs, List.length_append, Nat.add_sub_cancel_left]
  rw [if_neg (by decide)]

/-- Instance of the preceding theorem: the encoding of the bulk string of 5000 bytes `a`
is decoded, with a nil error, as 4089 bytes `a` followed by 911 zero bytes. -/
theorem Read_Marshal_long_payload :
    ∃ r1, (NewResp [(Value.mk "bulk" [] 0
        (List.replicate 4089 97 ++ List.replicate 911 97) []).Marshal]).Read =
      .ret (Value.mk "bulk" [] 0 (List.replicate 4089 97 ++ List.replicate 911 0) [], none) r1 := by
  have hI : decimalDigits 5000 = [53, 48, 48, 48] := by
    rw [← Itoa_natCast]
    decide
  have h := Read_Marshal_past_buffer (List.replicate 4089 97) (List.replicate 911 97)
    (by rw [← List.length_pos, List.length_replicate]; norm_num)
    (by rw [List.mem_replicate]; rintro ⟨_, h⟩; cases h)
    (by rw [List.length_append, List.length_replicate, List.length_replicate]
        unfold maxAlloc
        norm_num)
    (by rw [List.length_append, List.length_replicate, List.length_replicate]
        have h5 : 4089 + 911 = 5000 := rfl
        rw [h5, hI]
        rfl)
  rw [List.length_replicate] at h
  exact h

theorem Outcome.Settled.mono {α : Type} (o : Outcome α) (m n : Nat) (h : o.Settled m)
    (hmn : m ≤ n) : o.Settled n := by
  cases o with
  | ret a r1 => exact le_trans h hmn
  | panic => trivial
  | fuel => exact h

/-! ## The fuel of the model is never used up -/

theorem ReadByte_some (b : bufio.Reader) (c : Byte) (b1 : bufio.Reader)
    (h : b.ReadByte = (some c, b1)) : b.content = c :: b1.content := by
  cases hc : b.content with
  | nil =>
    obtain ⟨b2, h2, _, _⟩ := bufio.Reader.ReadByte_nil b hc
    rw [h2] at h
    cases h
  | cons d ds =>
    obtain ⟨b2, h2, h3, _⟩ := bufio.Reader.ReadByte_cons b d ds hc
    rw [h2] at h
    cases h
    rw [h3]

theorem ReadByte_none (b : bufio.Reader) (b1 : bufio.Reader)
    (h : b.ReadByte = (none, b1)) : b.content = [] ∧ b1.content = [] := by
  cases hc : b.content with
  | nil =>
    obtain ⟨b2, h2, h3, _⟩ := bufio.Reader.ReadByte_nil b hc
    rw [h2] at h
    cases h
    exact ⟨rfl, h3⟩
  | cons d ds =>
    obtain ⟨b2, h2, _, _⟩ := bufio.Reader.ReadByte_cons b d ds hc
    rw [h2] at h
    cases h

/-- The bytes `Read` copies are the next bytes of the source, and it consumes exactly
those. -/
theorem Reader_Read_content (b : bufio.Reader) (n : Nat) :
    (b.Read n).1 ++ (b.Read n).2.content = b.content := by
  by_cases h0 : n = 0
  · simp [bufio.Reader.Read, h0]
  · cases hb : b.buf with
    | cons c cs =>
      simp only [bufio.Reader.Read, if_neg h0, bufio.Reader.content, hb]
      rw [← List.append_assoc, List.take_append_drop]
    | nil =>
      by_cases hcap : n ≥ b.cap
      · simp only [bufio.Reader.Read, if_neg h0, bufio.Reader.content, hb, if_pos hcap,
          List.nil_append]
        exact bufio.Reader.srcRead_flatten n b.rd
      · simp only [bufio.Reader.Read, if_neg h0, bufio.Reader.content, hb, if_neg hcap,
          List.nil_append]
        rw [← List.append_assoc, List.take_append_drop]
        exact bufio.Reader.srcRead_flatten b.cap b.rd

theorem readLineLoop_settled (fuel : Nat) :
    ∀ (r : Resp) (acc : List Byte) (n : Nat), r.rest.length < fuel →
      (readLineLoop fuel r acc n).Settled r.rest.length := by
  induction fuel with
  | zero => intro r acc n h; omega
  | succ f ih =>
    intro r acc n h
    rw [readLineLoop]
    simp only [Resp.rest] at h ⊢
    rcases hb : r.reader.ReadByte with ⟨_ | c, b1⟩
    · have := (ReadByte_none _ _ hb).2
      simp only [Outcome.Settled, Resp.rest, this, List.length_nil, Nat.zero_le]
    · have hc := ReadByte_some _ _ _ hb
      have hlen : r.reader.content.length = b1.content.length + 1 := by
        rw [hc]; rfl
      simp only []
      split_ifs
      · simp only [Outcome.Settled, Resp.rest]
        omega
      · have h1 := ih ⟨b1⟩ (acc ++ [c]) (n + 1) (by simp only [Resp.rest]; omega)
        exact Outcome.Settled.mono _ _ _ h1 (by simp only [Resp.rest]; omega)

theorem readLine_settled (r : Resp) : r.readLine.Settled r.rest.length :=
  readLineLoop_settled _ r [] 0 (Nat.lt_succ_self _)

theorem readInteger_settled (r : Resp) : r.readInteger.Settled r.rest.length := by
  have h := readLine_settled r
  rw [Resp.readInteger]
  rcases hl : r.readLine with ⟨⟨line, n, _ | e⟩, r1⟩ | _ | _
  · rw [hl] at h
    simp only []
    cases ParseInt line <;> exact h
  · rw [hl] at h
    exact h
  · trivial
  · rw [hl] at h
    exact h

theorem readBulk_settled (r : Resp) : r.readBulk.Settled r.rest.length := by
  have h := readInteger_settled r
  rw [Resp.readBulk]
  rcases hi : r.readInteger with ⟨⟨len, n, _ | e⟩, r1⟩ | _ | _
  · rw [hi] at h
    simp only []
    split_ifs
    · trivial
    · have hc := congrArg List.length (Reader_Read_content r1.reader len.toNat)
      rw [List.length_append] at hc
      have h2 := readLine_settled ⟨(r1.reader.Read len.toNat).2⟩
      rcases hl : Resp.readLine ⟨(r1.reader.Read len.toNat).2⟩ with ⟨a, r3⟩ | _ | _
      · rw [hl] at h2
        simp only [Outcome.Settled, Resp.rest] at h h2 ⊢
        omega
      · trivial
      · rw [hl] at h2
        exact h2
  · rw [hi] at h
    exact h
  · trivial
  · rw [hi] at h
    exact h

theorem arrayLoop_settled (read : Resp → Outcome (Value × Option GoError)) (f : Nat)
    (hread : ∀ r : Resp, r.rest.length < f → (read r).Settled r.rest.length) (k : Nat) :
    ∀ (i : Nat) (arr : List Value) (r : Resp), r.rest.length < f →
      (arrayLoop read k i arr r).Settled r.rest.length := by
  induction k with
  | zero =>
    intro i arr r _
    simp [arrayLoop, Outcome.Settled]
  | succ k ih =>
    intro i arr r hr
    have h := hread r hr
    rw [arrayLoop]
    rcases hv : read r with ⟨⟨val, _ | e⟩, r1⟩ | _ | _
    · rw [hv] at h
      simp only [Outcome.Settled] at h
      exact Outcome.Settled.mono _ _ _ (ih (i + 1) (arr.set i val) r1 (by omega)) h
    · rw [hv] at h
      exact h
    · trivial
    · rw [hv] at h
      exact h

theorem readArray_settled (read : Resp → Outcome (Value × Option GoError)) (f : Nat)
    (hread : ∀ r : Resp, r.rest.length < f → (read r).Settled r.rest.length) (r : Resp)
    (hr : r.rest.length < f) : (Resp.readArray read r).Settled r.rest.length := by
  have h := readInteger_settled r
  rw [Resp.readArray]
  rcases hi : r.readInteger with ⟨⟨len, n, _ | e⟩, r1⟩ | _ | _
  · rw [hi] at h
    simp only [Outcome.Settled] at h
    simp only []
    split_ifs
    · trivial
    · exact Outcome.Settled.mono _ _ _
        (arrayLoop_settled read f hread _ 0 _ r1 (by omega)) h
  · rw [hi] at h
    exact h
  · trivial
  · rw [hi] at h
    exact h

/-- With more fuel than the source has bytes, `Read` returns or panics, and leaves no
more bytes than it found. -/
theorem ReadFuel_settled (f : Nat) :
    ∀ r : Resp, r.rest.length < f → (ReadFuel f r).Settled r.rest.length := by
  induction f with
  | zero => intro r h; omega
  | succ f ih =>
    intro r h
    rw [ReadFuel]
    simp only [Resp.rest] at h ⊢
    rcases hb : r.reader.ReadByte with ⟨_ | c, b1⟩
    · have := (ReadByte_none _ _ hb).2
      simp only [Outcome.Settled, Resp.rest, this, List.length_nil, Nat.zero_le]
    · have hc := ReadByte_some _ _ _ hb
      have hlen : r.reader.content.length = b1.content.length + 1 := by
        rw [hc]; rfl
      have hb1 : (⟨b1⟩ : Resp).rest.length < f := by
        simp only [Resp.rest]; omega
      have hle : (⟨b1⟩ : Resp).rest.length ≤ r.reader.content.length := by
        simp only [Resp.rest]; omega
      simp only []
      split_ifs
      · exact Outcome.Settled.mono _ _ _ (readArray_settled (ReadFuel f) f ih ⟨b1⟩ hb1) hle
      · exact Outcome.Settled.mono _ _ _ (readBulk_settled ⟨b1⟩) hle
      · exact hle

/-- The method `Read` of the model always returns or panics: its fuel suffices. -/
theorem Read_settled (r : Resp) : r.Read.Settled r.rest.length :=
  ReadFuel_settled _ r (Nat.lt_succ_self _)

/-! ## The model of `Read` satisfies the recursive definition of the source -/

theorem arrayLoop_congr (read1 read2 : Resp → Outcome (Value × Option GoError)) (bound : Nat)
    (hagree : ∀ r : Resp, r.rest.length ≤ bound → read1 r = read2 r)
    (hset : ∀ r : Resp, r.rest.length ≤ bound → (read1 r).Settled r.rest.length) (k : Nat) :
    ∀ (i : Nat) (arr : List Value) (r : Resp), r.rest.length ≤ bound →
      arrayLoop read1 k i arr r = arrayLoop read2 k i arr r := by
  induction k with
  | zero => intro i arr r _; rfl
  | succ k ih =>
    intro i arr r hr
    have h := hset r hr
    rw [arrayLoop, arrayLoop, ← hagree r hr]
    rcases hv : read1 r with ⟨⟨val, _ | e⟩, r1⟩ | _ | _
    · rw [hv] at h
      simp only [Outcome.Settled] at h
      exact ih (i + 1) (arr.set i val) r1 (by omega)
    · rfl
    · rfl
    · rfl

theorem readArray_congr (read1 read2 : Resp → Outcome (Value × Option GoError)) (r : Resp)
    (hagree : ∀ r1 : Resp, r1.rest.length ≤ r.rest.length → read1 r1 = read2 r1)
    (hset : ∀ r1 : Resp, r1.rest.length ≤ r.rest.length → (read1 r1).Settled r1.rest.length) :
    Resp.readArray read1 r = Resp.readArray read2 r := by
  have h := readInteger_settled r
  rw [Resp.readArray, Resp.readArray]
  rcases hi : r.readInteger with ⟨⟨len, n, _ | e⟩, r1⟩ | _ | _
  · rw [hi] at h
    simp only [Outcome.Settled] at h
    simp only []
    split_ifs
    · rfl
    · exact arrayLoop_congr read1 read2 r.rest.length hagree hset _ 0 _ r1 h
  · rfl
  · rfl
  · rfl

/-- The result of `ReadFuel` does not depend on the fuel, once there is more fuel than
the source has bytes. -/
theorem ReadFuel_fuel (f : Nat) :
    ∀ (g : Nat) (r : Resp), r.rest.length < f → r.rest.length < g →
      ReadFuel f r = ReadFuel g r := by
  induction f with
  | zero => intro g r h; omega
  | succ f ih =>
    intro g r hf hg
    obtain ⟨g, rfl⟩ : ∃ g1, g = g1 + 1 := ⟨g - 1, by omega⟩
    rw [ReadFuel, ReadFuel]
    simp only [Resp.rest] at hf hg
    rcases hb : r.reader.ReadByte with ⟨_ | c, b1⟩
    · rfl
    · have hc := ReadByte_some _ _ _ hb
      have hlen : r.reader.content.length = b1.content.length + 1 := by
        rw [hc]; rfl
      simp only []
      split_ifs
      · exact readArray_congr (ReadFuel f) (ReadFuel g) ⟨b1⟩
          (fun r1 h1 => ih g r1 (by simp only [Resp.rest] at h1 ⊢; omega)
            (by simp only [Resp.rest] at h1 ⊢; omega))
          (fun r1 h1 => ReadFuel_settled f r1 (by simp only [Resp.rest] at h1 ⊢; omega))
      · rfl
      · rfl

/-- The method `Read` of the model satisfies the definition of `Read` in the source:
it reads the tag byte and dispatches to `readArray`, which calls `Read` itself for the
elements, or to `readBulk`. -/
theorem Read_eq (r : Resp) :
    r.Read =
      match r.reader.ReadByte with
      | (none, rd1) => .ret (Value.zero, some .eof) { reader := rd1 }
      | (some typ, rd1) =>
        if typ = ARRAY then Resp.readArray Resp.Read { reader := rd1 }
        else if typ = BULK then Resp.readBulk { reader := rd1 }
        else .ret (Value.zero, none) { reader := rd1 } := by
  rw [Resp.Read, ReadFuel]
  rcases hb : r.reader.ReadByte with ⟨_ | c, b1⟩
  · rfl
  · have hc := ReadByte_some _ _ _ hb
    have hlen : r.reader.content.length = b1.content.length + 1 := by
      rw [hc]; rfl
    simp only []
    split_ifs
    · exact readArray_congr (ReadFuel r.rest.length) Resp.Read ⟨b1⟩
        (fun r1 h1 => ReadFuel_fuel _ _ r1 (by simp only [Resp.rest] at h1 ⊢; omega)
          (Nat.lt_succ_self _))
        (fun r1 h1 => ReadFuel_settled _ r1 (by simp only [Resp.rest] at h1 ⊢; omega))
    · rfl
    · rfl

/-! ## The line reader and the encoder on the remaining forms -/

/-- Claim C13 fails on the code: `readLine` ends the line at the first CR that is
followed by any byte. On the source `a\rb\r\n` it returns the line `a` with `n = 3` and
leaves `\r\n` unread, where the bytes before the first CR LF pair are `a\rb`; on the
source `a\rb`, which has no CR LF pair at all, it returns the line `a` with a nil error. -/
theorem readLine_stops_after_CR :
    (NewResp [[97, 13, 98, 13, 10]]).readLine =
        .ret ([97], 3, none) ⟨⟨[13, 10], [[]], 4096⟩⟩ ∧
      (NewResp [[97, 13, 98]]).readLine = .ret ([97], 3, none) ⟨⟨[], [[]], 4096⟩⟩ :=
  ⟨by rfl, by rfl⟩

/-- Claim C15. Marshal of a value with typ `"string"` and str `s` is `+`, `s`, CR LF;
with typ `"error"` it is `-`, `s`, CR LF; with typ `"null"` it is the five bytes
`$-1\r\n`; whatever the other fields hold. -/
theorem Marshal_line_and_null (s : List Byte) (n : Int) (b : List Byte) (a : List Value) :
    (Value.mk "string" s n b a).Marshal = [STRING] ++ s ++ [CR, LF] ∧
      (Value.mk "error" s n b a).Marshal = [ERROR] ++ s ++ [CR, LF] ∧
      (Value.mk "null" s n b a).Marshal = [36, 45, 49, 13, 10] := by
  refine ⟨?_, ?_, ?_⟩
  · rw [Value.Marshal]
    simp [Value.marshalString, Value.str]
  · rw [Value.Marshal]
    simp [Value.marshallError, Value.str]
  · rw [Value.Marshal]
    simp [Value.marshallNull]

/-- Claim C16 as stated fails: Marshal of the value with typ `"integer"` and num `1000`
is not `:1000\r\n`. -/
theorem Marshal_integer_not_text :
    (Value.mk "integer" [] 1000 [] []).Marshal ≠ [58, 49, 48, 48, 48, 13, 10] := by
  decide

/-- Claim C16, amended. `Marshal` has no case for integers: for every number `n`,
Marshal of a value with typ `"integer"` and num `n` is the empty byte sequence,
whatever the other fields hold. -/
theorem Marshal_integer (s : List Byte) (n : Int) (b : List Byte) (a : List Value) :
    (Value.mk "integer" s n b a).Marshal = [] := by
  rw [Value.Marshal]
  simp

/-- Claim C17 fails on the code: on the input `$1\r\nabc\r\n` the payload `a` is followed
by `bc`, not by CR LF, and `Read` returns the bulk string `a` with a nil error after
consuming the four bytes `bc\r\n` behind the payload. -/
theorem Read_bulk_swallows_line :
    (NewResp [[36, 49, 13, 10, 97, 98, 99, 13, 10]]).Read =
      .ret (Value.mk "bulk" [] 0 [97] [], none) ⟨⟨[], [[]], 4096⟩⟩ := by
  rfl

/-- Claim C19 fails on the code: a negative length or count makes `make` panic, also
inside an array. `Read` panics on the input `*1\r\n$-1\r\n` and on the input `*-2\r\n`. -/
theorem Read_negative_length_panics :
    (NewResp [[42, 49, 13, 10, 36, 45, 49, 13, 10]]).Read = .panic ∧
      (NewResp [[42, 45, 50, 13, 10]]).Read = .panic :=
  ⟨by rfl, by rfl⟩

/-- A length above the limit of the runtime makes `make` panic as well: `Read` panics on
the input `$9223372036854775807\r\nabc\r\n` and on the input `*9223372036854775807\r\n`. -/
theorem Read_huge_length_panics :
    (NewResp [[36, 57, 50, 50, 51, 51, 55, 50, 48, 51, 54, 56, 53, 52, 55, 55, 53, 56, 48, 55,
        13, 10, 97, 98, 99, 13, 10]]).Read = .panic ∧
      (NewResp [[42, 57, 50, 50, 51, 51, 55, 50, 48, 51, 54, 56, 53, 52, 55, 55, 53, 56, 48, 55,
        13, 10]]).Read = .panic :=
  ⟨by rfl, by rfl⟩

/-! ## `ParseInt` succeeds exactly on the integers of 64 bits -/

theorem foldl_digits_ge (cs : List Byte) :
    ∀ a : Nat, a ≤ cs.foldl (fun a c => a * 10 + (c - 48)) a := by
  induction cs with
  | nil => intro a; exact le_refl a
  | cons c cs ih =>
    intro a
    exact le_trans (by omega) (ih (a * 10 + (c - 48)))

theorem parseUintLoop_value (t : List Byte) :
    ∀ (acc m : Nat), parseUintLoop t acc = .ok m →
      m = t.foldl (fun a c => a * 10 + (c - 48)) acc := by
  induction t with
  | nil =>
    intro acc m h
    rw [parseUintLoop] at h
    cases h
    rfl
  | cons c cs ih =>
    intro acc m h
    rw [parseUintLoop] at h
    by_cases hc : 48 ≤ c ∧ c ≤ 57
    · rw [if_pos hc] at h
      by_cases h1 : acc ≥ (2 ^ 64 - 1) / 10 + 1
      · rw [if_pos h1] at h; cases h
      · rw [if_neg h1] at h
        by_cases h2 : acc * 10 + (c - 48) > 2 ^ 64 - 1
        · rw [if_pos h2] at h; cases h
        · rw [if_neg h2] at h
          exact ih _ _ h
    · rw [if_neg hc] at h; cases h

theorem parseUintLoop_lt (t : List Byte) :
    ∀ (acc m : Nat), acc < 2 ^ 64 → parseUintLoop t acc = .ok m → m < 2 ^ 64 := by
  induction t with
  | nil =>
    intro acc m hacc h
    rw [parseUintLoop] at h
    cases h
    exact hacc
  | cons c cs ih =>
    intro acc m hacc h
    rw [parseUintLoop] at h
    by_cases hc : 48 ≤ c ∧ c ≤ 57
    · rw [if_pos hc] at h
      by_cases h1 : acc ≥ (2 ^ 64 - 1) / 10 + 1
      · rw [if_pos h1] at h; cases h
      · rw [if_neg h1] at h
        by_cases h2 : acc * 10 + (c - 48) > 2 ^ 64 - 1
        · rw [if_pos h2] at h; cases h
        · rw [if_neg h2] at h
          refine ih _ _ ?_ h
          norm_num at h2 ⊢
          omega
    · rw [if_neg hc] at h; cases h

theorem parseUintLoop_ok (t : List Byte) :
    ∀ acc : Nat, t.all isDigit = true →
      t.foldl (fun a c => a * 10 + (c - 48)) acc < 2 ^ 64 →
      parseUintLoop t acc = .ok (t.foldl (fun a c => a * 10 + (c - 48)) acc) := by
  induction t with
  | nil => intro acc _ _; rfl
  | cons c cs ih =>
    intro acc hd hlt
    simp only [List.all_cons, Bool.and_eq_true, isDigit, decide_eq_true_eq] at hd
    simp only [List.foldl_cons] at hlt ⊢
    have hge := foldl_digits_ge cs (acc * 10 + (c - 48))
    have hsmall : acc * 10 + (c - 48) < 2 ^ 64 := lt_of_le_of_lt hge hlt
    have h1 : ¬ acc ≥ (2 ^ 64 - 1) / 10 + 1 := by
      norm_num at hsmall ⊢
      omega
    have h2 : ¬ acc * 10 + (c - 48) > 2 ^ 64 - 1 := by
      norm_num at hsmall ⊢
      omega
    rw [parseUintLoop, if_pos hd.1, if_neg h1, if_neg h2]
    exact ih _ hd.2 hlt

theorem parseUint_digits (t : List Byte) (hd : t.all isDigit = true) :
    (digitsValue t < 2 ^ 64 → parseUintLoop t 0 = .ok (digitsValue t)) ∧
      (¬ digitsValue t < 2 ^ 64 → ∃ e, parseUintLoop t 0 = .error e) := by
  constructor
  · intro h
    exact parseUintLoop_ok t 0 hd h
  · intro h
    cases hp : parseUintLoop t 0 with
    | error e => exact ⟨e, rfl⟩
    | ok m =>
      exfalso
      have h1 := parseUintLoop_value t 0 m hp
      have h2 := parseUintLoop_lt t 0 m (by norm_num) hp
      rw [h1] at h2
      exact h h2

theorem ParseInt_cons_ok (c : Byte) (cs : List Byte) (un : Nat)
    (hne : (if c = 43 ∨ c = 45 then cs else c :: cs) ≠ [])
    (hp : parseUintLoop (if c = 43 ∨ c = 45 then cs else c :: cs) 0 = .ok un) :
    ParseInt (c :: cs) =
      if ¬ c = 45 ∧ un ≥ 2 ^ 63 then .error (.rangeNum (c :: cs))
      else if c = 45 ∧ un > 2 ^ 63 then .error (.rangeNum (c :: cs))
      else if c = 45 then .ok (-(un : Int)) else .ok (un : Int) := by
  simp only [ParseInt]
  rw [if_neg hne, hp]

theorem ParseInt_cons_error (c : Byte) (cs : List Byte) (e : NumErr)
    (hp : parseUintLoop (if c = 43 ∨ c = 45 then cs else c :: cs) 0 = .error e) :
    ∃ e1, ParseInt (c :: cs) = .error e1 := by
  simp only [ParseInt]
  by_cases ht : (if c = 43 ∨ c = 45 then cs else c :: cs) = []
  · rw [if_pos ht]
    exact ⟨_, rfl⟩
  · rw [if_neg ht, hp]
    cases e <;> exact ⟨_, rfl⟩

theorem inInt64_neg (n : Nat) : inInt64 (-(n : Int)) = true ↔ n ≤ 2 ^ 63 := by
  simp only [inInt64, Bool.and_eq_true, decide_eq_true_eq]
  norm_num
  omega

theorem inInt64_pos (n : Nat) : inInt64 (n : Int) = true ↔ n < 2 ^ 63 := by
  simp only [inInt64, Bool.and_eq_true, decide_eq_true_eq]
  norm_num
  omega

/-- The digits `t` of a line, read by `ParseUint` and given the sign `neg`, succeed
exactly when the signed value is in the range of 64 bits. -/
theorem ParseInt_digits (c : Byte) (cs t : List Byte)
    (ht : (if c = 43 ∨ c = 45 then cs else c :: cs) = t) (hne : t ≠ [])
    (hd : t.all isDigit = true) :
    (c = 45 → (inInt64 (-(digitsValue t : Int)) = true →
        ParseInt (c :: cs) = .ok (-(digitsValue t : Int))) ∧
      (¬ inInt64 (-(digitsValue t : Int)) = true → ∃ e, ParseInt (c :: cs) = .error e)) ∧
    (¬ c = 45 → (inInt64 (digitsValue t : Int) = true →
        ParseInt (c :: cs) = .ok (digitsValue t : Int)) ∧
      (¬ inInt64 (digitsValue t : Int) = true → ∃ e, ParseInt (c :: cs) = .error e)) := by
  subst ht
  obtain ⟨hok, herr⟩ := parseUint_digits _ hd
  by_cases hlt : digitsValue (if c = 43 ∨ c = 45 then cs else c :: cs) < 2 ^ 64
  · have hp := hok hlt
    have hcons := ParseInt_cons_ok c cs _ hne hp
    constructor
    · intro hc
      rw [inInt64_neg]
      constructor
      · intro hr
        rw [hcons, if_neg (fun h => h.1 hc), if_neg (fun h => absurd h.2 (not_lt.mpr hr)),
          if_pos hc]
      · intro hr
        rw [hcons, if_neg (fun h => h.1 hc), if_pos ⟨hc, not_le.mp hr⟩]
        exact ⟨_, rfl⟩
    · intro hc
      rw [inInt64_pos]
      constructor
      · intro hr
        rw [hcons, if_neg (fun h => absurd h.2 (not_le.mpr hr)), if_neg (fun h => hc h.1),
          if_neg hc]
      · intro hr
        rw [hcons, if_pos ⟨hc, not_lt.mp hr⟩]
        exact ⟨_, rfl⟩
  · obtain ⟨e, hp⟩ := herr hlt
    have hbig : ¬ digitsValue (if c = 43 ∨ c = 45 then cs else c :: cs) ≤ 2 ^ 63 := by
      norm_num at hlt ⊢
      omega
    have hbig1 : ¬ digitsValue (if c = 43 ∨ c = 45 then cs else c :: cs) < 2 ^ 63 := by
      norm_num at hlt ⊢
      omega
    constructor
    · intro _
      rw [inInt64_neg]
      exact ⟨fun hr => absurd hr hbig, fun _ => ParseInt_cons_error c cs e hp⟩
    · intro _
      rw [inInt64_pos]
      exact ⟨fun hr => absurd hr hbig1, fun _ => ParseInt_cons_error c cs e hp⟩

/-- The library function `ParseInt` returns the value of a line that is a base-10
signed integer in the range of 64 bits, and an error for every other line. -/
theorem ParseInt_spec (L : List Byte) :
    (isDecimalInt L = true ∧ inInt64 (decimalIntValue L) = true →
        ParseInt L = .ok (decimalIntValue L)) ∧
      (¬ (isDecimalInt L = true ∧ inInt64 (decimalIntValue L) = true) →
        ∃ e, ParseInt L = .error e) := by
  by_cases hdec : isDecimalInt L = true
  · cases L with
    | nil => cases hdec
    | cons c cs =>
      rw [isDecimalInt] at hdec
      by_cases hs : c = 43 ∨ c = 45
      · rw [if_pos hs] at hdec
        simp only [Bool.and_eq_true, Bool.not_eq_true', List.isEmpty_eq_false] at hdec
        have h := ParseInt_digits c cs cs (if_pos hs) hdec.1 hdec.2
        by_cases hc : c = 45
        · have hv : decimalIntValue (c :: cs) = -(digitsValue cs : Int) := by
            rw [decimalIntValue, if_pos hc]
          rw [hv]
          exact ⟨fun hh => (h.1 hc).1 hh.2, fun hh => (h.1 hc).2 (fun h2 => hh ⟨by
            rw [isDecimalInt, if_pos hs]; simp [hdec.1, hdec.2], h2⟩)⟩
        · have hc43 : c = 43 := hs.resolve_right hc
          have hv : decimalIntValue (c :: cs) = (digitsValue cs : Int) := by
            rw [decimalIntValue, if_neg hc, if_pos hc43]
          rw [hv]
          exact ⟨fun hh => (h.2 hc).1 hh.2, fun hh => (h.2 hc).2 (fun h2 => hh ⟨by
            rw [isDecimalInt, if_pos hs]; simp [hdec.1, hdec.2], h2⟩)⟩
      · rw [if_neg hs] at hdec
        have hc : ¬ c = 45 := fun h => hs (Or.inr h)
        have hc43 : ¬ c = 43 := fun h => hs (Or.inl h)
        have h := ParseInt_digits c cs (c :: cs) (if_neg hs) (by simp) hdec
        have hv : decimalIntValue (c :: cs) = (digitsValue (c :: cs) : Int) := by
          rw [decimalIntValue, if_neg hc, if_neg hc43]
        rw [hv]
        exact ⟨fun hh => (h.2 hc).1 hh.2, fun hh => (h.2 hc).2 (fun h2 => hh ⟨by
          rw [isDecimalInt, if_neg hs]; exact hdec, h2⟩)⟩
  · constructor
    · intro hh
      exact absurd hh.1 hdec
    · intro _
      exact ParseInt_error L (by simpa using hdec)

/-- Claim C14. For a line `L` without CR that the source terminates by CR LF,
`readInteger` returns a nil error exactly when `L` is a base-10 signed integer (an
optional sign, at least one digit, nothing else) whose value lies in the signed 64-bit
range; then `x` is that value. Otherwise it returns an error. In both cases `n` is
`len(L) + 2` and exactly the line and its terminator are consumed. -/
theorem readInteger_spec (r : Resp) (L rest : List Byte) (hL : CR ∉ L)
    (hr : r.rest = L ++ [CR, LF] ++ rest) :
    (isDecimalInt L = true ∧ inInt64 (decimalIntValue L) = true →
        ∃ r1, r.readInteger = .ret (decimalIntValue L, L.length + 2, none) r1 ∧
          r1.rest = rest) ∧
      (¬ (isDecimalInt L = true ∧ inInt64 (decimalIntValue L) = true) →
        ∃ e r1, r.readInteger = .ret (0, L.length + 2, some e) r1 ∧ r1.rest = rest) := by
  have hr1 : r.rest = L ++ CR :: LF :: rest := by simpa using hr
  obtain ⟨r1, h1, h2, _⟩ := readLine_line r L LF rest hL hr1
  constructor
  · intro h
    have hp := (ParseInt_spec L).1 h
    exact ⟨r1, by simp [Resp.readInteger, h1, hp], h2⟩
  · intro h
    obtain ⟨e, hp⟩ := (ParseInt_spec L).2 h
    exact ⟨e, r1, by simp [Resp.readInteger, h1, hp], h2⟩

theorem readInteger_spec_witness :
    CR ∉ [45, 49] ∧ (NewResp [[45, 49, 13, 10, 120]]).rest = [45, 49] ++ [CR, LF] ++ [120] ∧
      ∃ r1, (NewResp [[45, 49, 13, 10, 120]]).readInteger = .ret (-1, 4, none) r1 ∧
        r1.rest = [120] :=
  ⟨by decide, by decide,
    (readInteger_spec (NewResp [[45, 49, 13, 10, 120]]) [45, 49] [120] (by decide)
      (by decide)).1 ⟨by decide, by decide⟩⟩

/-! ## The end of the source -/

theorem readLineLoop_nil (f : Nat) (r : Resp) (acc : List Byte) (n : Nat) (hr : r.rest = []) :
    ∃ r1, readLineLoop (f + 1) r acc n = .ret ([], 0, some .eof) r1 ∧ r1.rest = [] := by
  obtain ⟨b1, hb1, hc1, _⟩ := bufio.Reader.ReadByte_nil r.reader hr
  refine ⟨⟨b1⟩, ?_, hc1⟩
  rw [readLineLoop]
  simp only [hb1]

/-- The loop of `readLine` on a source that ends before a CR has been followed by
another byte: it reports `io.EOF`. -/
theorem readLineLoop_eof (L : List Byte) :
    ∀ (fuel : Nat) (r : Resp) (acc : List Byte) (n : Nat),
      CR ∉ acc → CR ∉ L.dropLast → r.rest = L → L.length + 1 ≤ fuel →
      ∃ r1, readLineLoop fuel r acc n = .ret ([], 0, some .eof) r1 ∧ r1.rest = [] := by
  induction L with
  | nil =>
    intro fuel r acc n _ _ hr hfuel
    obtain ⟨f, rfl⟩ : ∃ f, fuel = f + 1 := ⟨fuel - 1, by simp at hfuel; omega⟩
    exact readLineLoop_nil f r acc n hr
  | cons a L ih =>
    intro fuel r acc n hacc hL hr hfuel
    obtain ⟨f, rfl⟩ : ∃ f, fuel = f + 1 := ⟨fuel - 1, by simp at hfuel; omega⟩
    obtain ⟨b1, hb1, hc1, _⟩ := bufio.Reader.ReadByte_cons r.reader a L hr
    have hstep : readLineLoop (f + 1) r acc n = readLineLoop f ⟨b1⟩ (acc ++ [a]) (n + 1) := by
      rw [readLineLoop]
      simp only [hb1]
      rw [if_neg (line_continue acc a hacc)]
    rw [hstep]
    cases L with
    | nil =>
      obtain ⟨g, rfl⟩ : ∃ g, f = g + 1 := ⟨f - 1, by simp at hfuel; omega⟩
      exact readLineLoop_nil g ⟨b1⟩ _ _ hc1
    | cons b L1 =>
      simp only [List.dropLast_cons₂, List.mem_cons, not_or] at hL
      have hacc1 : CR ∉ acc ++ [a] := by
        simp only [List.mem_append, List.mem_singleton, not_or]
        exact ⟨hacc, hL.1⟩
      exact ih f ⟨b1⟩ (acc ++ [a]) (n + 1) hacc1 hL.2 hc1 (by simp at hfuel ⊢; omega)

theorem readInteger_eof (r : Resp) (L : List Byte) (hL : CR ∉ L.dropLast) (hr : r.rest = L) :
    ∃ r1, r.readInteger = .ret (0, 0, some .eof) r1 ∧ r1.rest = [] := by
  obtain ⟨r1, h1, h2⟩ := readLineLoop_eof L (r.rest.length + 1) r [] 0 (by simp) hL hr
    (by rw [hr])
  refine ⟨r1, ?_, h2⟩
  rw [Resp.readInteger, Resp.readLine, h1]

/-- On a source that ends inside the length line after the tag `$` or `*`, `Read`
returns the error `io.EOF`. -/
theorem Read_eof_in_line (r : Resp) (tag : Byte) (L : List Byte)
    (htag : tag = BULK ∨ tag = ARRAY) (hL : CR ∉ L.dropLast) (hr : r.rest = tag :: L) :
    ∃ v r1, r.Read = .ret (v, some .eof) r1 := by
  obtain ⟨b1, hc1, _, h⟩ := Read_cons r tag L hr
  obtain ⟨r1, he, _⟩ := readInteger_eof ⟨b1⟩ L hL hc1
  rcases htag with rfl | rfl
  · refine ⟨.mk "bulk" [] 0 [] [], r1, ?_⟩
    rw [h, if_neg (by decide), if_pos rfl, Resp.readBulk, he]
  · refine ⟨Value.zero, r1, ?_⟩
    rw [h, if_pos rfl, Resp.readArray, he]

theorem ReadFuel_nil (f : Nat) (r : Resp) (hr : r.rest = []) :
    ∃ r1, ReadFuel (f + 1) r = .ret (Value.zero, some .eof) r1 := by
  obtain ⟨b1, hb1, _, _⟩ := bufio.Reader.ReadByte_nil r.reader hr
  refine ⟨⟨b1⟩, ?_⟩
  rw [ReadFuel]
  simp only [hb1]

/-- On an empty source `Read` returns the empty value and the error `io.EOF`. -/
theorem Read_nil (r : Resp) (hr : r.rest = []) :
    ∃ r1, r.Read = .ret (Value.zero, some .eof) r1 :=
  ReadFuel_nil _ r hr

theorem arrayLoop_buf_eof (read : Resp → Outcome (Value × Option GoError)) (k : Nat)
    (hend : ∀ r : Resp, r.rest = [] → ∃ v r1, read r = .ret (v, some .eof) r1)
    (es : List Value) :
    ∀ (done : List Value) (r : Resp),
      (∀ e ∈ es, ∀ (r : Resp) (tail : List Byte), r.reader.buf = e.Marshal ++ tail →
        read r = .ret (e, none) ⟨⟨tail, r.reader.rd, r.reader.size⟩⟩) →
      r.reader.buf = marshalElems es → r.reader.rd.flatten = [] →
      ∃ r1, arrayLoop read (es.length + (k + 1)) done.length
          (done ++ List.replicate (es.length + (k + 1)) Value.zero) r =
        .ret (.mk "array" [] 0 [] (done ++ es ++ List.replicate (k + 1) Value.zero), some .eof)
          r1 := by
  induction es with
  | nil =>
    intro done r _ hbuf hrd
    have hrest : r.rest = [] := by
      simp only [Resp.rest, bufio.Reader.content, hbuf, marshalElems, hrd, List.append_nil]
    obtain ⟨v, r1, hv⟩ := hend r hrest
    refine ⟨r1, ?_⟩
    rw [List.length_nil, Nat.zero_add, arrayLoop, hv, List.append_nil]
  | cons e es ih =>
    intro done r hread hbuf hrd
    simp only [marshalElems] at hbuf
    have hlen : (e :: es).length + (k + 1) = (es.length + (k + 1)) + 1 := by
      simp only [List.length_cons]
      omega
    have hset : (done ++ List.replicate (es.length + (k + 1) + 1) Value.zero).set done.length e =
        (done ++ [e]) ++ List.replicate (es.length + (k + 1)) Value.zero := by
      simp [List.replicate_succ, List.set_append_right]
    have hdl : done.length + 1 = (done ++ [e]).length := by simp
    obtain ⟨r1, h1⟩ := ih (done ++ [e]) ⟨⟨marshalElems es, r.reader.rd, r.reader.size⟩⟩
      (fun e1 he1 => hread e1 (List.mem_cons_of_mem _ he1)) rfl hrd
    refine ⟨r1, ?_⟩
    rw [hlen, arrayLoop, hread e (List.mem_cons_self _ _) r _ hbuf]
    simp only []
    rw [hset, hdl, h1]
    simp

/-- An array that declares `N` elements and is followed in the buffer by fewer complete
elements, after which the source ends: `Read` returns the error `io.EOF`, together with
the array of the elements read and empty values in the places not reached. -/
theorem Read_array_eof (r : Resp) (N : Nat) (es : List Value) (hes : ∀ e ∈ es, Plain e)
    (hlt : es.length < N) (hN : sizeofValue * N ≤ maxAlloc)
    (hbuf : r.reader.buf = [ARRAY] ++ decimalDigits N ++ [CR, LF] ++ marshalElems es)
    (hrd : r.reader.rd.flatten = []) :
    ∃ r1, r.Read = .ret (.mk "array" [] 0 []
      (es ++ List.replicate (N - es.length) Value.zero), some .eof) r1 := by
  have hbuf1 : r.reader.buf = ARRAY :: (decimalDigits N ++ CR :: LF :: marshalElems es) := by
    simpa using hbuf
  have hrest : r.rest.length = (decimalDigits N).length + (marshalElems es).length + 3 := by
    simp only [Resp.rest, bufio.Reader.content, hbuf1, hrd, List.append_nil, List.length_cons,
      List.length_append]
    omega
  obtain ⟨k, hk⟩ : ∃ k, N = es.length + (k + 1) := ⟨N - es.length - 1, by omega⟩
  have hnn := makePanics_natCast sizeofValue N hN
  obtain ⟨g, hg⟩ : ∃ g, r.rest.length = g + 1 := ⟨r.rest.length - 1, by omega⟩
  obtain ⟨r1, h1⟩ := arrayLoop_buf_eof (ReadFuel r.rest.length) k
    (fun r2 hr2 => by
      rw [hg]
      obtain ⟨r3, h3⟩ := ReadFuel_nil g r2 hr2
      exact ⟨_, r3, h3⟩)
    es [] ⟨⟨marshalElems es, r.reader.rd, r.reader.size⟩⟩
    (fun e he r2 tail hr2 => ReadFuel_buf e (hes e he) _ r2 tail (by
      have := Marshal_length_le es e he
      omega) hr2) rfl hrd
  refine ⟨r1, ?_⟩
  rw [Resp.Read, ReadFuel]
  simp only [ReadByte_buf r.reader ARRAY _ hbuf1]
  rw [if_pos trivial, Resp.readArray,
    readInteger_buf ⟨⟨_, r.reader.rd, r.reader.size⟩⟩ N (marshalElems es)
      (maxAlloc_lt _ (sizeofValue_le _ hN)) rfl]
  simp only [if_neg hnn, Int.toNat_ofNat]
  have hsub : N - es.length = k + 1 := by omega
  rw [hsub]
  have h2 : arrayLoop (ReadFuel r.rest.length) N 0 (List.replicate N Value.zero)
      ⟨⟨marshalElems es, r.reader.rd, r.reader.size⟩⟩ =
      .ret (.mk "array" [] 0 [] (es ++ List.replicate (k + 1) Value.zero), some .eof) r1 := by
    rw [hk]
    simpa using h1
  exact h2

/-- A fresh decoder whose source delivers its bytes in one piece of at most 4096 bytes
behaves like a decoder that has these bytes in its buffer. -/
theorem Read_one_piece (c : Byte) (m : List Byte) (hlen : (c :: m).length ≤ 4096) :
    (NewResp [c :: m]).Read = (⟨⟨c :: m, [[]], 4096⟩⟩ : Resp).Read := by
  have htake : (c :: m).take 4096 = c :: m := List.take_of_length_le hlen
  have hdrop : (c :: m).drop 4096 = [] := List.drop_of_length_le hlen
  have hcap : (⟨[], [c :: m], 4096⟩ : bufio.Reader).cap = 4096 := rfl
  have hbyte : (NewResp [c :: m]).reader.ReadByte =
      (⟨⟨c :: m, [[]], 4096⟩⟩ : Resp).reader.ReadByte := by
    rw [ReadByte_buf ⟨c :: m, [[]], 4096⟩ c m rfl]
    simp only [NewResp]
    rw [bufio.Reader.ReadByte]
    simp only [bufio.NewReader, bufio.Reader.srcRead, hcap, htake, hdrop]
  have hrest : (NewResp [c :: m]).rest = (⟨⟨c :: m, [[]], 4096⟩⟩ : Resp).rest := by
    simp [NewResp, bufio.NewReader, Resp.rest, bufio.Reader.content]
  rw [Resp.Read, Resp.Read, hrest]
  exact ReadFuel_congr _ _ _ hbyte

/-- Claim C12 as stated fails: on the empty source and on the source `$5`, which ends
inside the length line, `Read` returns one and the same error `io.EOF`. -/
theorem Read_eof_same_error :
    (NewResp []).Read = .ret (Value.zero, some .eof) ⟨⟨[], [], 4096⟩⟩ ∧
      (NewResp [[36, 53]]).Read = .ret (Value.mk "bulk" [] 0 [] [], some .eof) ⟨⟨[], [], 4096⟩⟩ :=
  ⟨by rfl, by rfl⟩

/-- Claim C12, amended. On an empty source (`r0`) `Read` returns the empty value and the
end-of-stream error `io.EOF`. When the source ends inside the length line that follows
the tag `$` or `*` (`r`), `Read` returns that same error `io.EOF`; and so it does when a
fresh decoder receives, in one piece of at most 4096 bytes, an array that declares
`N ≤ 4096` elements and holds fewer complete elements, each of them a bulk string or an
array as `Marshal` encodes it. -/
theorem Read_end_of_stream (r0 : Resp) (h0 : r0.rest = [])
    (r : Resp) (tag : Byte) (L : List Byte) (htag : tag = BULK ∨ tag = ARRAY)
    (hL : CR ∉ L.dropLast) (hr : r.rest = tag :: L)
    (N : Nat) (es : List Value) (hes : ∀ e ∈ es, Plain e)
    (hlt : es.length < N) (hN : N ≤ 4096)
    (hlen : ([ARRAY] ++ decimalDigits N ++ [CR, LF] ++ marshalElems es).length ≤ 4096) :
    (∃ r1, r0.Read = .ret (Value.zero, some .eof) r1) ∧
      (∃ v r1, r.Read = .ret (v, some .eof) r1) ∧
      (∃ r1, (NewResp [[ARRAY] ++ decimalDigits N ++ [CR, LF] ++ marshalElems es]).Read =
        .ret (.mk "array" [] 0 []
          (es ++ List.replicate (N - es.length) Value.zero), some .eof) r1) := by
  refine ⟨Read_nil r0 h0, Read_eof_in_line r tag L htag hL hr, ?_⟩
  have hcons : [ARRAY] ++ decimalDigits N ++ [CR, LF] ++ marshalElems es =
      ARRAY :: (decimalDigits N ++ [CR, LF] ++ marshalElems es) := by simp
  have hN1 : sizeofValue * N ≤ maxAlloc := by
    unfold sizeofValue maxAlloc
    norm_num
    omega
  rw [hcons] at hlen ⊢
  rw [Read_one_piece _ _ hlen]
  exact Read_array_eof ⟨⟨_, [[]], 4096⟩⟩ N es hes hlt hN1 (by simp) rfl

theorem Read_end_of_stream_witness :
    (∃ r1, (NewResp []).Read = .ret (Value.zero, some .eof) r1) ∧
      (∃ v r1, (NewResp [[42, 50, 13]]).Read = .ret (v, some .eof) r1) ∧
      (∃ r1, (NewResp [[42, 50, 13, 10, 36, 49, 13, 10, 97, 13, 10]]).Read =
        .ret (.mk "array" [] 0 [] [Value.mk "bulk" [] 0 [97] [], Value.zero], some .eof) r1) := by
  have hb : [ARRAY] ++ decimalDigits 2 ++ [CR, LF] ++ marshalElems [Value.mk "bulk" [] 0 [97] []] =
      [42, 50, 13, 10, 36, 49, 13, 10, 97, 13, 10] := by
    rw [← Itoa_natCast]
    rfl
  have h := Read_end_of_stream (NewResp []) (by decide)
    (NewResp [[42, 50, 13]]) 42 [50, 13] (by decide) (by decide) (by decide)
    2 [Value.mk "bulk" [] 0 [97] []]
    (fun e he => by
      rw [List.mem_singleton] at he
      subst he
      exact Plain.bulk [97] (by unfold maxAlloc; norm_num))
    (by decide) (by decide) (by rw [hb]; decide)
  rw [hb] at h
  exact h

/-! ## Encoding what was decoded -/

theorem foldl_digits_map (ds : List Nat) :
    ∀ acc : Nat, (∀ d ∈ ds, d < 10) →
      (ds.map fun d => 48 + d).foldl (fun a c => a * 10 + (c - 48)) acc =
        acc * 10 ^ ds.length + Nat.ofDigits 10 ds.reverse := by
  induction ds with
  | nil => intro acc _; simp
  | cons d ds ih =>
    intro acc hd
    have h48 : 48 + d - 48 = d := by omega
    rw [List.map_cons, List.foldl_cons, h48, ih _ (fun e he => hd e (List.mem_cons_of_mem _ he))]
    simp only [List.length_cons, List.reverse_cons, Nat.ofDigits_append, List.length_reverse,
      Nat.ofDigits_singleton]
    ring

/-- The decimal digits of a number denote that number. -/
theorem digitsValue_decimalDigits (n : Nat) : digitsValue (decimalDigits n) = n := by
  unfold decimalDigits digitsValue
  split_ifs with h0
  · subst h0; rfl
  · have := foldl_digits_map (Nat.digits 10 n).reverse 0
      (fun d hd => Nat.digits_lt_base (by norm_num) (List.mem_reverse.mp hd))
    simpa [Nat.ofDigits_digits] using this

theorem decimalDigits_all (n : Nat) : (decimalDigits n).all isDigit = true := by
  rw [List.all_eq_true]
  intro c hc
  have := decimalDigits_digit n c hc
  simp [isDigit, this.1, this.2]

/-- An encoding written the shortest way is a well-formed encoding. -/
theorem Canonical.wellFormed (bytes : List Byte) (h : Canonical bytes) : WellFormed bytes := by
  induction h with
  | bulk p =>
    exact WellFormed.bulk _ p (decimalDigits_ne_nil _) (decimalDigits_all _)
      (digitsValue_decimalDigits _)
  | array es _ ih =>
    exact WellFormed.array _ es (decimalDigits_ne_nil _) (decimalDigits_all _)
      (digitsValue_decimalDigits _) ih

theorem Canonical.ne_nil (bytes : List Byte) (h : Canonical bytes) : bytes ≠ [] := by
  cases h <;> simp

theorem length_le_flatten (es : List (List Byte)) :
    ∀ e ∈ es, e.length ≤ es.flatten.length := by
  induction es with
  | nil => intro e he; cases he
  | cons a es ih =>
    intro e he
    simp only [List.flatten_cons, List.length_append]
    rcases List.mem_cons.mp he with rfl | h
    · omega
    · have := ih e h
      omega

theorem count_le_flatten (es : List (List Byte)) (h : ∀ e ∈ es, e ≠ []) :
    es.length ≤ es.flatten.length := by
  induction es with
  | nil => simp
  | cons a es ih =>
    have ha : 0 < a.length := List.length_pos.mpr (h a (List.mem_cons_self _ _))
    have := ih (fun e he => h e (List.mem_cons_of_mem _ he))
    simp only [List.length_cons, List.flatten_cons, List.length_append]
    omega

theorem exists_values (es : List (List Byte))
    (h : ∀ e ∈ es, ∃ v, Plain v ∧ v.Marshal = e) :
    ∃ vs : List Value, (∀ v ∈ vs, Plain v) ∧ vs.map Value.Marshal = es := by
  induction es with
  | nil => exact ⟨[], by simp, rfl⟩
  | cons a es ih =>
    obtain ⟨v, hv, hm⟩ := h a (List.mem_cons_self _ _)
    obtain ⟨vs, hvs, hms⟩ := ih (fun e he => h e (List.mem_cons_of_mem _ he))
    refine ⟨v :: vs, ?_, by simp [hm, hms]⟩
    intro w hw
    rcases List.mem_cons.mp hw with rfl | hw1
    · exact hv
    · exact hvs w hw1

/-- An encoding written the shortest way is the encoding `Marshal` gives for a plain
value. -/
theorem Canonical.plain (bytes : List Byte) (h : Canonical bytes) :
    sizeofValue * bytes.length ≤ maxAlloc → ∃ v, Plain v ∧ v.Marshal = bytes := by
  induction h with
  | bulk p =>
    intro hlen
    refine ⟨.mk "bulk" [] 0 p [], Plain.bulk p ?_, Marshal_bulk _ _ _ _⟩
    simp only [List.length_append] at hlen
    unfold sizeofValue at hlen
    omega
  | array es hes ih =>
    intro hlen
    simp only [List.length_append] at hlen
    unfold sizeofValue at hlen
    obtain ⟨vs, hvs, hms⟩ := exists_values es (fun e he => ih e he (by
      have := length_le_flatten es e he
      unfold sizeofValue
      omega))
    have hcount := count_le_flatten es (fun e he => Canonical.ne_nil e (hes e he))
    have hl : vs.length = es.length := by
      rw [← hms, List.length_map]
    refine ⟨.mk "array" [] 0 [] vs, Plain.array vs (by unfold sizeofValue; omega) hvs, ?_⟩
    rw [Marshal_array, hms, hl]

/-- Claim C11 as stated fails: `$05\r\nhello\r\n` is a well-formed encoding of the bulk
string `hello` with its length written as the base-10 number `05`; `Read` succeeds on it,
and Marshal of the value it returns is `$5\r\nhello\r\n`, one byte shorter. -/
theorem Marshal_Read_leading_zero :
    WellFormed [36, 48, 53, 13, 10, 104, 101, 108, 108, 111, 13, 10] ∧
      (NewResp [[36, 48, 53, 13, 10, 104, 101, 108, 108, 111, 13, 10]]).Read =
        .ret (Value.mk "bulk" [] 0 [104, 101, 108, 108, 111] [], none) ⟨⟨[], [[]], 4096⟩⟩ ∧
      (Value.mk "bulk" [] 0 [104, 101, 108, 108, 111] []).Marshal ≠
        [36, 48, 53, 13, 10, 104, 101, 108, 108, 111, 13, 10] :=
  ⟨WellFormed.bulk [48, 53] [104, 101, 108, 108, 111] (by decide) (by decide) (by decide),
    by rfl, by decide⟩

/-- Claim C11, amended. For every well-formed encoding of a non-null bulk string or of
an array of such values whose lengths and counts are written as decimal digits without
sign and leading zeros, held by a fresh decoder's source that delivers it in one piece
of at most 4096 bytes, `Read` succeeds with a value `v`, has consumed the whole
encoding, and `Marshal(v)` is the original byte sequence. -/
theorem Marshal_Read_canonical (bytes : List Byte) (hc : Canonical bytes)
    (hlen : bytes.length ≤ 4096) :
    ∃ v, (NewResp [bytes]).Read = .ret (v, none) ⟨⟨[], [[]], 4096⟩⟩ ∧ v.Marshal = bytes := by
  obtain ⟨v, hv, hm⟩ := Canonical.plain bytes hc (by
    unfold sizeofValue maxAlloc
    norm_num
    omega)
  refine ⟨v, ?_, hm⟩
  have h := Read_Marshal_one_piece v hv [] (by simpa [hm] using hlen)
  simpa [hm] using h

theorem Marshal_Read_canonical_witness :
    Canonical [42, 49, 13, 10, 36, 49, 13, 10, 97, 13, 10] ∧
      [42, 49, 13, 10, 36, 49, 13, 10, 97, 13, 10].length ≤ 4096 ∧
      ∃ v, (NewResp [[42, 49, 13, 10, 36, 49, 13, 10, 97, 13, 10]]).Read =
          .ret (v, none) ⟨⟨[], [[]], 4096⟩⟩ ∧
        v.Marshal = [42, 49, 13, 10, 36, 49, 13, 10, 97, 13, 10] := by
  have h1 : decimalDigits 1 = [49] := by
    rw [← Itoa_natCast]
    rfl
  have hb : Canonical [36, 49, 13, 10, 97, 13, 10] := by
    have h := Canonical.bulk [97]
    rw [List.length_singleton, h1] at h
    exact h
  have ha : Canonical [42, 49, 13, 10, 36, 49, 13, 10, 97, 13, 10] := by
    have h := Canonical.array [[36, 49, 13, 10, 97, 13, 10]] (fun e he => by
      rw [List.mem_singleton] at he
      rw [he]
      exact hb)
    rw [List.length_singleton, h1] at h
    exact h
  exact ⟨ha, by decide, Marshal_Read_canonical _ ha (by decide)⟩

/-! ## Declared and decoded sizes -/

theorem Read_cons_eq (r : Resp) (c : Byte) (rest : List Byte) (hr : r.rest = c :: rest) :
    ∃ b1 : bufio.Reader, b1.content = rest ∧
      r.Read =
        if c = ARRAY then Resp.readArray Resp.Read { reader := b1 }
        else if c = BULK then Resp.readBulk { reader := b1 }
        else .ret (Value.zero, none) { reader := b1 } := by
  obtain ⟨b1, hb1, hc1, _⟩ := bufio.Reader.ReadByte_cons r.reader c rest hr
  refine ⟨b1, hc1, ?_⟩
  rw [Read_eq]
  simp only [hb1]

theorem decimalIntValue_decimalDigits (n : Nat) : decimalIntValue (decimalDigits n) = (n : Int) := by
  have hv := digitsValue_decimalDigits n
  have hdig := decimalDigits_digit n
  cases hs : decimalDigits n with
  | nil => exact absurd hs (decimalDigits_ne_nil n)
  | cons c cs =>
    rw [hs] at hv hdig
    have hc := hdig c (List.mem_cons_self _ _)
    have h45 : ¬ c = 45 := by
      rintro rfl
      exact absurd hc.1 (by decide)
    have h43 : ¬ c = 43 := by
      rintro rfl
      exact absurd hc.1 (by decide)
    rw [decimalIntValue, if_neg h45, if_neg h43, hv]

theorem isDecimalInt_decimalDigits (n : Nat) : isDecimalInt (decimalDigits n) = true := by
  have hall := decimalDigits_all n
  have hdig := decimalDigits_digit n
  cases hs : decimalDigits n with
  | nil => exact absurd hs (decimalDigits_ne_nil n)
  | cons c cs =>
    rw [hs] at hall hdig
    have hc := hdig c (List.mem_cons_self _ _)
    have hsgn : ¬ (c = 43 ∨ c = 45) := by
      rintro (rfl | rfl) <;> exact absurd hc.1 (by decide)
    rw [isDecimalInt, if_neg hsgn]
    exact hall

/-- After the decimal digits of `N` and CR LF, `readInteger` returns `N` or an error. -/
theorem readInteger_decimalDigits (r : Resp) (N : Nat) (tail : List Byte)
    (hr : r.rest = decimalDigits N ++ [CR, LF] ++ tail) :
    (∃ r0, r.readInteger = .ret ((N : Int), (decimalDigits N).length + 2, none) r0 ∧
        r0.rest = tail) ∨
      (∃ e r0, r.readInteger = .ret (0, (decimalDigits N).length + 2, some e) r0) := by
  have h := readInteger_spec r (decimalDigits N) tail (decimalDigits_no_CR N) hr
  by_cases hin : inInt64 (decimalIntValue (decimalDigits N)) = true
  · obtain ⟨r0, h1, h2⟩ := h.1 ⟨isDecimalInt_decimalDigits N, hin⟩
    rw [decimalIntValue_decimalDigits] at h1
    exact Or.inl ⟨r0, h1, h2⟩
  · obtain ⟨e, r0, h1, _⟩ := h.2 (fun hh => hin hh.2)
    exact Or.inr ⟨e, r0, h1⟩

theorem arrayLoop_ok (k : Nat) :
    ∀ (done : List Value) (r : Resp) (v : Value) (r1 : Resp),
      arrayLoop Resp.Read k done.length (done ++ List.replicate k Value.zero) r =
        .ret (v, none) r1 →
      ∃ es : List Value, es.length = k ∧ v = .mk "array" [] 0 [] (done ++ es) ∧
        ReadSeq r es r1 := by
  induction k with
  | zero =>
    intro done r v r1 h
    rw [arrayLoop] at h
    injection h with h1 h2
    injection h1 with h3 _
    subst h2
    exact ⟨[], rfl, by simpa using h3.symm, ReadSeq.nil r⟩
  | succ k ih =>
    intro done r v r1 h
    rw [arrayLoop] at h
    rcases hv : r.Read with ⟨⟨val, _ | e⟩, r2⟩ | _ | _
    · rw [hv] at h
      simp only [] at h
      have hset : (done ++ List.replicate (k + 1) Value.zero).set done.length val =
          (done ++ [val]) ++ List.replicate k Value.zero := by
        simp [List.replicate_succ, List.set_append_right]
      have hdl : done.length + 1 = (done ++ [val]).length := by simp
      rw [hset, hdl] at h
      obtain ⟨es, hl, hval, hseq⟩ := ih (done ++ [val]) r2 v r1 h
      refine ⟨val :: es, by simp [hl], by simpa using hval, ReadSeq.cons r r2 r1 val es hv hseq⟩
    · rw [hv] at h
      simp only [] at h
      injection h with h1 _
      injection h1 with _ h2
      cases h2
    · rw [hv] at h
      cases h
    · rw [hv] at h
      cases h

theorem srcRead_length_le (n : Nat) (cs : List (List Byte)) :
    (bufio.Reader.srcRead n cs).1.length ≤ n := by
  induction cs with
  | nil => simp [bufio.Reader.srcRead]
  | cons c cs ih =>
    cases c with
    | nil => simpa [bufio.Reader.srcRead] using ih
    | cons x c =>
      simp only [bufio.Reader.srcRead, List.length_take]
      exact Nat.min_le_left _ _

/-- The method `Read(p)` of the buffered reader copies at most `len(p)` bytes. -/
theorem Reader_Read_length_le (b : bufio.Reader) (n : Nat) : (b.Read n).1.length ≤ n := by
  by_cases h0 : n = 0
  · simp [bufio.Reader.Read, h0]
  · cases hb : b.buf with
    | cons c cs =>
      simp only [bufio.Reader.Read, if_neg h0, hb, List.length_take]
      exact Nat.min_le_left _ _
    | nil =>
      by_cases hcap : n ≥ b.cap
      · simp only [bufio.Reader.Read, if_neg h0, hb, if_pos hcap]
        exact srcRead_length_le n b.rd
      · simp only [bufio.Reader.Read, if_neg h0, hb, if_neg hcap, List.length_take]
        exact Nat.min_le_left _ _

/-- Claim C18. Whenever `Read` succeeds on an input that starts with `*`, the decimal
digits of `N` and CR LF, the value returned has typ `"array"` and exactly `N` elements,
which are the values that successive calls of `Read` decode from the bytes after the
header, in that order. Whenever `Read` succeeds on an input that starts with `$`, the
decimal digits of `N` and CR LF, the value returned has typ `"bulk"` and a payload of
exactly `N` bytes. -/
theorem Read_declared_size (r : Resp) (tag : Byte) (N : Nat) (tail : List Byte) (v : Value)
    (r1 : Resp) (hr : r.rest = [tag] ++ decimalDigits N ++ [CR, LF] ++ tail)
    (hok : r.Read = .ret (v, none) r1) :
    (tag = ARRAY → ∃ r0 : Resp, r0.rest = tail ∧ v.typ = "array" ∧ v.array.length = N ∧
        ReadSeq r0 v.array r1) ∧
      (tag = BULK → v.typ = "bulk" ∧ v.bulk.length = N) := by
  have hr1 : r.rest = tag :: (decimalDigits N ++ [CR, LF] ++ tail) := by simpa using hr
  obtain ⟨b1, hc1, h⟩ := Read_cons_eq r tag _ hr1
  rw [h] at hok
  constructor
  · intro htag
    rw [if_pos htag, Resp.readArray] at hok
    rcases readInteger_decimalDigits ⟨b1⟩ N tail hc1 with ⟨r0, hi, hrest⟩ | ⟨e, r0, hi⟩
    · rw [hi] at hok
      simp only [] at hok
      by_cases hm : makePanics sizeofValue (N : Int) = true
      · rw [if_pos hm] at hok
        cases hok
      rw [if_neg hm] at hok
      simp only [Int.toNat_ofNat] at hok
      obtain ⟨es, hl, hv, hseq⟩ := arrayLoop_ok N [] r0 v r1 (by simpa using hok)
      subst hv
      exact ⟨r0, hrest, rfl, by simpa [Value.array] using hl, by simpa [Value.array] using hseq⟩
    · rw [hi] at hok
      injection hok with h1 _
      injection h1 with _ h2
      cases h2
  · intro htag
    have hna : ¬ tag = ARRAY := by
      rw [htag]
      decide
    rw [if_neg hna, if_pos htag, Resp.readBulk] at hok
    rcases readInteger_decimalDigits ⟨b1⟩ N tail hc1 with ⟨r0, hi, _⟩ | ⟨e, r0, hi⟩
    · rw [hi] at hok
      simp only [] at hok
      by_cases hm : makePanics 1 (N : Int) = true
      · rw [if_pos hm] at hok
        cases hok
      rw [if_neg hm] at hok
      simp only [Int.toNat_ofNat] at hok
      have hle := Reader_Read_length_le r0.reader N
      rcases hl : Resp.readLine ⟨(r0.reader.Read N).2⟩ with ⟨a, r3⟩ | _ | _
      · rw [hl] at hok
        injection hok with h1 _
        injection h1 with h3 _
        subst h3
        refine ⟨rfl, ?_⟩
        simp only [Value.bulk, List.length_append, List.length_replicate]
        omega
      · rw [hl] at hok
        cases hok
      · rw [hl] at hok
        cases hok
    · rw [hi] at hok
      injection hok with h1 _
      injection h1 with _ h2
      cases h2

theorem Read_declared_size_witness :
    (NewResp [[42, 50, 13, 10, 36, 49, 13, 10, 97, 13, 10, 36, 49, 13, 10, 98, 13, 10]]).rest =
        [42] ++ decimalDigits 2 ++ [CR, LF] ++ [36, 49, 13, 10, 97, 13, 10, 36, 49, 13, 10, 98, 13, 10] ∧
      (NewResp [[42, 50, 13, 10, 36, 49, 13, 10, 97, 13, 10, 36, 49, 13, 10, 98, 13, 10]]).Read =
        .ret (.mk "array" [] 0 [] [.mk "bulk" [] 0 [97] [], .mk "bulk" [] 0 [98] []], none)
          ⟨⟨[], [[]], 4096⟩⟩ ∧
      ∃ r0 : Resp, r0.rest = [36, 49, 13, 10, 97, 13, 10, 36, 49, 13, 10, 98, 13, 10] ∧
        (Value.mk "array" [] 0 [] [.mk "bulk" [] 0 [97] [], .mk "bulk" [] 0 [98] []]).typ = "array" ∧
        (Value.mk "array" [] 0 [] [.mk "bulk" [] 0 [97] [], .mk "bulk" [] 0 [98] []]).array.length = 2 ∧
        ReadSeq r0
          (Value.mk "array" [] 0 [] [.mk "bulk" [] 0 [97] [], .mk "bulk" [] 0 [98] []]).array
          ⟨⟨[], [[]], 4096⟩⟩ := by
  have hr : (NewResp [[42, 50, 13, 10, 36, 49, 13, 10, 97, 13, 10, 36, 49, 13, 10, 98, 13, 10]]).rest =
      [42] ++ decimalDigits 2 ++ [CR, LF] ++
        [36, 49, 13, 10, 97, 13, 10, 36, 49, 13, 10, 98, 13, 10] := by
    rw [← Itoa_natCast]
    rfl
  exact ⟨hr, by rfl,
    (Read_declared_size _ 42 2 [36, 49, 13, 10, 97, 13, 10, 36, 49, 13, 10, 98, 13, 10] _ _ hr
      (by rfl)).1 rfl⟩

/-! ## Termination and the number of calls of `Read` -/

theorem arrayLoopCount_fst (readC : Resp → Outcome (Value × Option GoError) × Nat)
    (read : Resp → Outcome (Value × Option GoError)) (hread : ∀ r, (readC r).1 = read r)
    (k : Nat) :
    ∀ (i : Nat) (arr : List Value) (r : Resp),
      (arrayLoopCount readC k i arr r).1 = arrayLoop read k i arr r := by
  induction k with
  | zero => intro i arr r; rfl
  | succ k ih =>
    intro i arr r
    have h := hread r
    rw [arrayLoopCount, arrayLoop, ← h]
    rcases hv : readC r with ⟨⟨⟨val, _ | e⟩, r1⟩ | _ | _, c⟩
    · exact ih _ _ _
    · rfl
    · rfl
    · rfl

theorem readArrayCount_fst (readC : Resp → Outcome (Value × Option GoError) × Nat)
    (read : Resp → Outcome (Value × Option GoError)) (hread : ∀ r, (readC r).1 = read r)
    (r : Resp) : (Resp.readArrayCount readC r).1 = Resp.readArray read r := by
  rw [Resp.readArrayCount, Resp.readArray]
  rcases hi : r.readInteger with ⟨⟨len, n, _ | e⟩, r1⟩ | _ | _
  · simp only []
    split_ifs
    · rfl
    · exact arrayLoopCount_fst readC read hread _ _ _ _
  · rfl
  · rfl
  · rfl

/-- Counting the calls does not change what `Read` computes. -/
theorem ReadFuelCount_fst (f : Nat) : ∀ r : Resp, (ReadFuelCount f r).1 = ReadFuel f r := by
  induction f with
  | zero => intro r; rfl
  | succ f ih =>
    intro r
    rw [ReadFuelCount, ReadFuel]
    rcases hb : r.reader.ReadByte with ⟨_ | c, b1⟩
    · rfl
    · simp only []
      split_ifs
      · exact readArrayCount_fst (ReadFuelCount f) (ReadFuel f) ih _
      · rfl
      · rfl

theorem CallsBound.add (o : Outcome (Value × Option GoError)) (c1 c2 : Nat) (r r1 : Resp)
    (h1 : c1 + r1.rest.length ≤ r.rest.length) (h2 : CallsBound o c2 r1) :
    CallsBound o (c1 + c2) r := by
  rcases o with ⟨⟨v, _ | e⟩, r2⟩ | _ | _
  · simp only [CallsBound] at h2 ⊢
    omega
  · simp only [CallsBound] at h2 ⊢
    omega
  · simp only [CallsBound] at h2 ⊢
    omega
  · exact h2

theorem arrayLoopCount_bound (readC : Resp → Outcome (Value × Option GoError) × Nat) (f : Nat)
    (hb : ∀ r : Resp, r.rest.length < f → CallsBound (readC r).1 (readC r).2 r) (k : Nat) :
    ∀ (i : Nat) (arr : List Value) (r : Resp), r.rest.length < f →
      CallsBound (arrayLoopCount readC k i arr r).1 (arrayLoopCount readC k i arr r).2 r := by
  induction k with
  | zero =>
    intro i arr r _
    simp [arrayLoopCount, CallsBound]
  | succ k ih =>
    intro i arr r hr
    have h := hb r hr
    rw [arrayLoopCount]
    rcases hv : readC r with ⟨⟨⟨val, _ | e⟩, r1⟩ | _ | _, c⟩
    · rw [hv] at h
      simp only [CallsBound] at h
      exact CallsBound.add _ c _ r r1 h (ih (i + 1) (arr.set i val) r1 (by omega))
    · rw [hv] at h
      exact h
    · rw [hv] at h
      exact h
    · rw [hv] at h
      exact h

theorem readArrayCount_bound (readC : Resp → Outcome (Value × Option GoError) × Nat) (f : Nat)
    (hb : ∀ r : Resp, r.rest.length < f → CallsBound (readC r).1 (readC r).2 r) (r : Resp)
    (hr : r.rest.length < f) :
    CallsBound (Resp.readArrayCount readC r).1 (Resp.readArrayCount readC r).2 r := by
  have h := readInteger_settled r
  rw [Resp.readArrayCount]
  rcases hi : r.readInteger with ⟨⟨len, n, _ | e⟩, r1⟩ | _ | _
  · rw [hi] at h
    simp only [Outcome.Settled] at h
    simp only []
    split_ifs
    · simp [CallsBound]
    · have h1 := arrayLoopCount_bound readC f hb len.toNat 0
        (List.replicate len.toNat Value.zero) r1 (by omega)
      have h2 := CallsBound.add _ 0 _ r r1 (by omega) h1
      simpa using h2
  · rw [hi] at h
    simp only [Outcome.Settled] at h
    simp only [CallsBound]
    omega
  · simp [CallsBound]
  · rw [hi] at h
    exact h

/-- With more fuel than the source has bytes, the calls of `Read` are bounded: every call
but a last, failing one consumed at least one byte. -/
theorem ReadFuelCount_bound (f : Nat) :
    ∀ r : Resp, r.rest.length < f →
      CallsBound (ReadFuelCount f r).1 (ReadFuelCount f r).2 r ∧ 1 ≤ (ReadFuelCount f r).2 := by
  induction f with
  | zero => intro r h; omega
  | succ f ih =>
    intro r h
    rw [ReadFuelCount]
    simp only [Resp.rest] at h
    rcases hb : r.reader.ReadByte with ⟨_ | c, b1⟩
    · have := (ReadByte_none _ _ hb).2
      simp only [CallsBound, Resp.rest, this, List.length_nil]
      omega
    · have hc := ReadByte_some _ _ _ hb
      have hlen : r.reader.content.length = b1.content.length + 1 := by
        rw [hc]; rfl
      have hstep : 1 + (⟨b1⟩ : Resp).rest.length ≤ r.rest.length := by
        simp only [Resp.rest]; omega
      simp only []
      split_ifs
      · have h1 := readArrayCount_bound (ReadFuelCount f) f (fun r2 hr2 => (ih r2 hr2).1) ⟨b1⟩
          (by simp only [Resp.rest]; omega)
        have h2 := CallsBound.add _ 1 _ r ⟨b1⟩ hstep h1
        rw [Nat.add_comm] at h2
        exact ⟨h2, by omega⟩
      · have h1 := readBulk_settled ⟨b1⟩
        refine ⟨?_, le_refl 1⟩
        rcases hv : Resp.readBulk ⟨b1⟩ with ⟨⟨v, _ | e⟩, r1⟩ | _ | _
        · rw [hv] at h1
          simp only [Outcome.Settled, Resp.rest] at h1
          simp only [CallsBound, Resp.rest]
          omega
        · rw [hv] at h1
          simp only [Outcome.Settled, Resp.rest] at h1
          simp only [CallsBound, Resp.rest]
          omega
        · simp only [CallsBound, Resp.rest]
          omega
        · rw [hv] at h1
          exact h1
      · refine ⟨?_, le_refl 1⟩
        simp only [CallsBound, Resp.rest]
        omega

theorem readLineLoop_count (fuel : Nat) :
    ∀ (r : Resp) (acc : List Byte) (n0 : Nat) (line : List Byte) (n : Nat) (r1 : Resp),
      readLineLoop fuel r acc n0 = .ret (line, n, none) r1 →
      r1.rest.length + n = r.rest.length + n0 := by
  induction fuel with
  | zero =>
    intro r acc n0 line n r1 h
    rw [readLineLoop] at h
    cases h
  | succ f ih =>
    intro r acc n0 line n r1 h
    rw [readLineLoop] at h
    rcases hb : r.reader.ReadByte with ⟨_ | c, b1⟩
    · rw [hb] at h
      simp only [] at h
      injection h with h1 _
      injection h1 with _ h2
      injection h2 with _ h3
      cases h3
    · have hc := ReadByte_some _ _ _ hb
      have hlen : r.rest.length = b1.content.length + 1 := by
        simp only [Resp.rest]
        rw [hc]; rfl
      rw [hb] at h
      simp only [] at h
      split_ifs at h
      · injection h with h1 h2
        injection h1 with _ h3
        injection h3 with h4 _
        subst h2
        subst h4
        simp only [Resp.rest] at hlen ⊢
        omega
      · have := ih ⟨b1⟩ _ _ line n r1 h
        simp only [Resp.rest] at this hlen ⊢
        omega

/-- Claim C20. `Read` terminates on every source: it returns or panics and leaves no more
bytes than it found, with a nesting depth of at most the number of bytes plus one; a
call that returns a nil error has consumed at least one byte; `readLine` consumes one
byte for each iteration it counts in `n`; the loop of `readArray` stops at the first
element that fails; and the number of calls of `Read` made by one call, itself
included, is at most the number of bytes of the source plus one. -/
theorem Read_terminates (r : Resp) :
    r.Read.Settled r.rest.length ∧
      (∀ (v : Value) (r1 : Resp), r.Read = .ret (v, none) r1 →
        r1.rest.length < r.rest.length) ∧
      (∀ (line : List Byte) (n : Nat) (r1 : Resp), r.readLine = .ret (line, n, none) r1 →
        r1.rest.length + n = r.rest.length) ∧
      (∀ (read : Resp → Outcome (Value × Option GoError)) (k i : Nat) (arr : List Value)
          (val : Value) (e : GoError) (r1 : Resp), read r = .ret (val, some e) r1 →
        arrayLoop read (k + 1) i arr r = .ret (.mk "array" [] 0 [] arr, some e) r1) ∧
      (ReadFuelCount (r.rest.length + 1) r).1 = r.Read ∧
      r.ReadCalls ≤ r.rest.length + 1 := by
  have hb := ReadFuelCount_bound (r.rest.length + 1) r (Nat.lt_succ_self _)
  have hfst := ReadFuelCount_fst (r.rest.length + 1) r
  refine ⟨Read_settled r, ?_, ?_, ?_, hfst, ?_⟩
  · intro v r1 h
    have h1 := hb.1
    rw [hfst] at h1
    rw [Resp.Read] at h
    rw [h] at h1
    simp only [CallsBound] at h1
    have h2 := hb.2
    omega
  · intro line n r1 h
    have := readLineLoop_count _ r [] 0 line n r1 h
    omega
  · intro read k i arr val e r1 h
    rw [arrayLoop, h]
  · have h1 := hb.1
    rw [Resp.ReadCalls]
    rcases hv : (ReadFuelCount (r.rest.length + 1) r).1 with ⟨⟨v, _ | e⟩, r1⟩ | _ | _
    · rw [hv] at h1
      simp only [CallsBound] at h1
      omega
    · rw [hv] at h1
      simp only [CallsBound] at h1
      omega
    · rw [hv] at h1
      simp only [CallsBound] at h1
      omega
    · rw [hv] at h1
      exact absurd h1 id

/-- An instance of the count: decoding the array `*2\r\n$1\r\na\r\n$1\r\nb\r\n` of two bulk
strings takes three calls of `Read`. -/
theorem ReadCalls_two_elements :
    (NewResp [[42, 50, 13, 10, 36, 49, 13, 10, 97, 13, 10, 36, 49, 13, 10, 98, 13, 10]]).ReadCalls
      = 3 := by
  rfl

end Redis
